import Mathlib

/-!
Shallow embedding of the vrain_rs typesetting core.

Conventions used throughout this development:
* Rust `f32` values are modelled as exact rationals (`ℚ`).  The `f32`
  rounding-to-three-decimals helper becomes exact rational rounding and the
  NaN guard is a no-op on rationals (division by zero yields `0` in Lean,
  which coincides with the guarded behaviour).
* Rust `usize` becomes `ℕ`; saturating subtraction is `ℕ` subtraction.
* Fallible Rust functions returning `anyhow::Result` become `Except String`.
* External capabilities (font files queried through `fontdue`, the `zhconv`
  script-variant converter) are modelled as function-valued fields, exactly
  at the boundary the program uses them (`has_glyph`, first converted char).
* Unbounded `while` loops carry an explicit fuel argument; running out of
  fuel yields `Except.error`, so every `Except.ok` result of the embedding
  corresponds to a terminating run of the source program.
-/

/-- An RGB colour (source: `color.rs`, `RgbColor` with `f32` channels). -/
structure RgbColor where
  r : ℚ
  g : ℚ
  b : ℚ
deriving DecidableEq, Repr

/-- A grid cell position (source: `layout.rs`, `struct Cell`). -/
structure Cell where
  x : ℚ
  y : ℚ
deriving DecidableEq, Repr

/-- Multi-row banding mode (source: `multirows.rs`). -/
inductive MultiRowsMode where
  | Disabled : MultiRowsMode
  | HorizontalLeaf : ℕ → MultiRowsMode
  | HorizontalPage : ℕ → MultiRowsMode
deriving DecidableEq, Repr

/-- Per-mark adjustment table (source: `config.rs`, `MarkAdjust`). -/
structure MarkAdjust where
  chars : List Char
  scale : ℚ
  offset_x : ℚ
  offset_y : ℚ
deriving DecidableEq, Repr

/-- Punctuation configuration (source: `config.rs`, `PunctuationConfig`). -/
structure PunctuationConfig where
  text_nop : MarkAdjust
  text_rotate : MarkAdjust
  comment_nop : MarkAdjust
  comment_rotate : MarkAdjust
  comment_strip_chars : List Char
deriving DecidableEq, Repr

/-- Bookline decoration configuration (source: `config.rs`, `BookLineConfig`). -/
structure BookLineConfig where
  width : ℚ
  color : RgbColor
deriving DecidableEq, Repr

/-- The text-mode switches used by the engine (source: `config.rs`,
`TextModes`; only the fields read by the typesetting core are embedded). -/
structure TextModes where
  only_period : Bool
  only_period_color : Option RgbColor
deriving DecidableEq, Repr

/-- Title style; `suffix_str` embeds the source field holding the configured
chapter-title pattern (source: `config.rs`, `TitleConfig`). -/
structure TitleConfig where
  center : Bool
  suffix_str : Option String
  directory : Bool
deriving DecidableEq, Repr

/-- One font slot's metadata (source: `config.rs`, `FontSlot`). -/
structure FontSlot where
  id : ℕ
  name : String
  rotate_deg : ℚ
  text_size : ℚ
  comment_size : ℚ
deriving DecidableEq, Repr

/-- Book configuration, restricted to the fields the typesetting core reads
(source: `config.rs`, `BookConfig`). -/
structure BookConfig where
  title : String
  row_num : ℕ
  row_delta_y : ℚ
  try_st : Bool
  text_font_color : RgbColor
  comment_font_color : RgbColor
  title_style : TitleConfig
  text_modes : TextModes
  punctuation : PunctuationConfig
  bookline : Option BookLineConfig
  book_line_flag : Bool
deriving DecidableEq, Repr

/-- Canvas configuration (source: `config.rs`, `CanvasConfig`). -/
structure CanvasConfig where
  canvas_width : ℚ
  canvas_height : ℚ
  margins_top : ℚ
  margins_bottom : ℚ
  margins_left : ℚ
  margins_right : ℚ
  leaf_col : ℕ
  leaf_center_width : ℚ
deriving DecidableEq, Repr

/-- The built page grid (source: `layout.rs`, `struct Layout`). -/
structure Layout where
  per_page : ℕ
  pos_l : List Cell
  pos_r : List Cell
  cw : ℚ
  rh : ℚ
  canvas_width : ℚ
  canvas_height : ℚ
  margins_top : ℚ
  margins_bottom : ℚ
  rows_per_column : ℕ
  columns : ℕ
  multirows_bands : ℕ
deriving DecidableEq, Repr

namespace Layout

/-- Round to three decimal places (source: `layout.rs`, the
`(v * 1000.0).round() / 1000.0` step of `push_position`; the NaN guard of the
source is a no-op on exact rationals). -/
def round3 (v : ℚ) : ℚ := (round (v * 1000) : ℤ) / 1000

/-- The `(x, y)` pair recorded by one `push_position` call, before the
right-table shift. -/
def pushCell (x y : ℚ) : Cell := ⟨round3 x, round3 y⟩

/-- The x origin of column `i` (1-based) used by the `Disabled` and
`HorizontalLeaf` loops of `Layout::build`: columns at or left of the halfway
point measure from the right margin, later columns additionally subtract the
centre gutter. -/
def baseX (canvas : CanvasConfig) (cw : ℚ) (i : ℕ) : ℚ :=
  if (i : ℚ) ≤ (canvas.leaf_col : ℚ) / 2 then
    canvas.canvas_width - canvas.margins_right - cw * i
  else
    canvas.canvas_width - canvas.margins_right - cw * i - canvas.leaf_center_width

/-- The y position for band offset `off` and row `j` (1-based), shared by all
three enumeration orders of `Layout::build`. -/
def posY (book : BookConfig) (canvas : CanvasConfig) (rh off : ℚ) (j : ℕ) : ℚ :=
  canvas.canvas_height - canvas.margins_top - off - rh * j + book.row_delta_y

/-- The ordered list of `push_position` calls made by `Layout::build` for a
given mode (source: `layout.rs`, the three `match multirows` loop nests). -/
def pushList (book : BookConfig) (canvas : CanvasConfig) (mode : MultiRowsMode)
    (cw rh : ℚ) (rows_per_column : ℕ) : List Cell :=
  let col_num := canvas.leaf_col
  match mode with
  | .Disabled =>
      (List.range col_num).flatMap (fun i0 =>
        let i := i0 + 1
        (List.range rows_per_column).map (fun j0 =>
          pushCell (baseX canvas cw i) (posY book canvas rh 0 (j0 + 1))))
  | .HorizontalLeaf rows =>
      (List.range rows).flatMap (fun rid =>
        let off : ℚ := (rows_per_column : ℚ) * rid * rh
        (List.range col_num).flatMap (fun i0 =>
          let i := i0 + 1
          (List.range rows_per_column).map (fun j0 =>
            pushCell (baseX canvas cw i) (posY book canvas rh off (j0 + 1)))))
  | .HorizontalPage rows =>
      let half := col_num / 2
      let leftHalf :=
        (List.range rows).flatMap (fun rid =>
          let off : ℚ := (rows_per_column : ℚ) * rid * rh
          (List.range half).flatMap (fun i0 =>
            let i := i0 + 1
            (List.range rows_per_column).map (fun j0 =>
              pushCell (canvas.canvas_width - canvas.margins_right - cw * i)
                (posY book canvas rh off (j0 + 1)))))
      let rightHalf :=
        (List.range rows).flatMap (fun rid =>
          let off : ℚ := (rows_per_column : ℚ) * rid * rh
          (List.range (col_num - half)).flatMap (fun i0 =>
            let i := half + i0 + 1
            (List.range rows_per_column).map (fun j0 =>
              pushCell
                (canvas.canvas_width - canvas.margins_right - cw * i
                  - canvas.leaf_center_width)
                (posY book canvas rh off (j0 + 1)))))
      (if 0 < half then leftHalf else []) ++ rightHalf

/-- Geometry builder (source: `layout.rs`, `Layout::build`). -/
def build (book : BookConfig) (canvas : CanvasConfig) (mode : MultiRowsMode) :
    Except String Layout :=
  let col_num := canvas.leaf_col
  let row_num := book.row_num
  if col_num = 0 ∨ row_num = 0 then
    .error "canvas columns/row_num must be > 0"
  else
    let cw : ℚ := (canvas.canvas_width - canvas.margins_left - canvas.margins_right
        - canvas.leaf_center_width) / col_num
    let rh : ℚ := (canvas.canvas_height - canvas.margins_top - canvas.margins_bottom) / row_num
    let finish := fun (rows_per_column : ℕ) =>
      let pushes := pushList book canvas mode cw rh rows_per_column
      Except.ok {
        per_page := col_num * row_num
        pos_l := Cell.mk 0 0 :: pushes
        pos_r := Cell.mk 0 0 :: pushes.map (fun c => ⟨c.x + cw / 2, c.y⟩)
        cw := cw
        rh := rh
        canvas_width := canvas.canvas_width
        canvas_height := canvas.canvas_height
        margins_top := canvas.margins_top
        margins_bottom := canvas.margins_bottom
        rows_per_column := rows_per_column
        columns := col_num
        multirows_bands :=
          match mode with
          | .Disabled => 1
          | .HorizontalLeaf rows | .HorizontalPage rows => rows }
    match mode with
    | .Disabled => finish row_num
    | .HorizontalLeaf rows | .HorizontalPage rows =>
        if rows = 0 ∨ row_num % rows ≠ 0 then
          .error "row_num not divisible by multirows"
        else finish (row_num / rows)

/-- `Layout::capacity` (source: `layout.rs`). -/
def capacity (l : Layout) : ℕ := l.per_page

/-- `Layout::pos_left` (source: `layout.rs`). -/
def pos_left (l : Layout) (idx : ℕ) : Option Cell := l.pos_l.get? idx

/-- `Layout::pos_right` (source: `layout.rs`). -/
def pos_right (l : Layout) (idx : ℕ) : Option Cell := l.pos_r.get? idx

end Layout

/-- Whether an `Except` carries a success value. -/
def exceptOk {ε α : Type} : Except ε α → Bool
  | .ok _ => true
  | .error _ => false

/-- Line-padding computation (source: `preprocess.rs`, `missing_spaces`). -/
def missing_spaces (total : ℕ) (row_num : ℕ) : ℕ :=
  if row_num = 0 then 0
  else
    let remainder := total % row_num
    if remainder = 0 then 0 else row_num - remainder

/-- The fixed digit alphabet of the numeral fallback (source: `numerals.rs`,
the `digits` array of `fallback_digits`). -/
def numeralDigits : List Char := ['〇', '一', '二', '三', '四', '五', '六', '七', '八', '九']

/-- Digit symbol lookup, `digits[d]` of the source with `d < 10` always. -/
def digitSym (d : ℕ) : Char := numeralDigits.getD d '〇'

/-- The least-significant-first digit collection loop of `fallback_digits`
(source: `numerals.rs`); the fuel argument is the loop bound, `num` itself
suffices since the argument strictly decreases under division by ten. -/
def fbBuf : ℕ → ℕ → List Char
  | 0, _ => []
  | f + 1, n =>
      if n = 0 then []
      else digitSym (n % 10) :: fbBuf f (n / 10)

/-- Naive digit substitution (source: `numerals.rs`, `fallback_digits`). -/
def fallback_digits (num : ℕ) : String :=
  if num = 0 then "〇"
  else String.mk (fbBuf num num).reverse

/-- Numeral table capability (source: `numerals.rs`, `NumeralMap`; the loaded
pipe-delimited table is modelled as its lookup function). -/
structure NumeralMap where
  map : ℕ → Option String

namespace NumeralMap

/-- `NumeralMap::get` (source: `numerals.rs`). -/
def get (m : NumeralMap) (num : ℕ) : Option String := m.map num

/-- `NumeralMap::render` (source: `numerals.rs`). -/
def render (m : NumeralMap) (num : ℕ) : String :=
  match m.get num with
  | some value => value
  | none => fallback_digits num

end NumeralMap

/-- A loaded font slot: its config metadata plus the glyph-coverage
capability that the source queries through `fontdue`
(`lookup_glyph_index(ch) != 0` in `fonts.rs` becomes the `glyphs` predicate). -/
structure LoadedFont where
  slot : FontSlot
  glyphs : Char → Bool

/-- Font manager (source: `fonts.rs`, `FontManager`). -/
structure FontManager where
  slots : List (Option LoadedFont)
  text_stack : List ℕ
  comment_stack : List ℕ

/-- A resolved font pick (source: `fonts.rs`, `FontPick`). -/
structure FontPick where
  font : LoadedFont
  slot_index : ℕ

namespace FontManager

/-- `FontManager::font` (source: `fonts.rs`): slot ids are 1-based, `0` is
never a valid slot. -/
def font (fm : FontManager) (idx : ℕ) : Option LoadedFont :=
  if idx = 0 then none
  else (fm.slots.get? (idx - 1)).bind id

/-- `FontManager::has_glyph` (source: `fonts.rs`). -/
def has_glyph (fm : FontManager) (idx : ℕ) (ch : Char) : Bool :=
  match fm.font idx with
  | some lf => lf.glyphs ch
  | none => false

/-- `FontManager::pick_font` (source: `fonts.rs`): first slot of the stack
whose font contains the glyph. -/
def pick_font (fm : FontManager) (ch : Char) : List ℕ → Option FontPick
  | [] => none
  | idx :: rest =>
      if fm.has_glyph idx ch then
        match fm.font idx with
        | some f => some ⟨f, idx⟩
        | none => fm.pick_font ch rest
      else fm.pick_font ch rest

end FontManager

/-- Script variant selector of the external `zhconv` crate. -/
inductive ZhVariant where
  | ZhHant : ZhVariant
  | ZhHans : ZhVariant
deriving DecidableEq

/-- A glyph placement record (source: `plan.rs`, `GlyphSpec`). -/
structure GlyphSpec where
  ch : Char
  font_idx : ℕ
  font_size : ℚ
  x : ℚ
  y : ℚ
  rotate_deg : ℚ
  color : RgbColor
deriving DecidableEq, Repr

/-- A line placement record (source: `plan.rs`, `LineSpec`). -/
structure LineSpec where
  x1 : ℚ
  y1 : ℚ
  x2 : ℚ
  y2 : ℚ
  width : ℚ
  color : RgbColor
  wavy : Bool
deriving DecidableEq, Repr

/-- One page of the plan (source: `plan.rs`, `PagePlan`). -/
structure PagePlan where
  number : ℕ
  title : String
  glyphs : List GlyphSpec
  lines : List LineSpec
deriving DecidableEq, Repr

/-- An outline entry (source: `plan.rs`, `OutlineEntry`). -/
structure OutlineEntry where
  title : String
  page_number : ℕ
deriving DecidableEq, Repr

/-- Cover mode (source: `plan.rs`, `CoverPlan`). -/
inductive CoverPlan where
  | Image : CoverPlan
  | Generated : CoverPlan
deriving DecidableEq, Repr

/-- The document plan (source: `plan.rs`, `DocumentPlan`). -/
structure DocumentPlan where
  cover : CoverPlan
  cover_path : Option String
  pages : List PagePlan
  outlines : List OutlineEntry
deriving DecidableEq, Repr

/-- Typesetting options (source: `plan.rs`, `TypesetOptions`; `from`/`to`
are keywords in Lean, hence the `_idx` names). -/
structure TypesetOptions where
  from_idx : ℕ
  to_idx : ℕ
  test_pages : Option ℕ
  verbose : Bool
  cover_image : Option String
deriving DecidableEq, Repr

/-- A preprocessed chapter (source: `preprocess.rs`, `TextEntry`; the flat
character stream is kept as a `List Char`, matching the `chars()` iteration
of the engine). -/
structure TextEntry where
  name : String
  ordinal : ℕ
  data : List Char

/-- The preprocessed corpus (source: `preprocess.rs`, `TextCorpus`). -/
structure TextCorpus where
  entries : List (Option TextEntry)
  has_text000 : Bool
  has_text999 : Bool

namespace TextCorpus

/-- `TextCorpus::entry` (source: `preprocess.rs`). -/
def entry (c : TextCorpus) (idx : ℕ) : Except String TextEntry :=
  match (c.entries.get? idx).bind id with
  | some e => .ok e
  | none => .error "text entry not available"

/-- `TextCorpus::total_entries` (source: `preprocess.rs`): the greatest index
holding an entry, or `0` when there is none. -/
def total_entries (c : TextCorpus) : ℕ :=
  (((List.range c.entries.length).reverse).find?
    (fun i => ((c.entries.get? i).bind id).isSome)).getD 0

end TextCorpus

/-- The shared mutable state threaded through `Typesetter::build_plan` and
`LayoutEngine` by `&mut` arguments: in-progress page, emitted pages, slot
counter, generated-page counter and page-number counter. -/
structure MachineState where
  current : PagePlan
  pages : List PagePlan
  pcnt : ℕ
  generated : ℕ
  next_page_number : ℕ
deriving DecidableEq, Repr

/-- The borrowed context of the engine and the typesetter: configuration,
geometry, fonts, numeral table, corpus, options, plus the external `zhconv`
capability (its converted string is observed only through its first
character). -/
structure Ctx where
  book : BookConfig
  layout : Layout
  fonts : FontManager
  numerals : NumeralMap
  corpus : TextCorpus
  options : TypesetOptions
  zh : ZhVariant → Char → List Char

namespace Engine

/-- `LayoutEngine::reached_limit` (source: `layout_engine.rs`). -/
def reached_limit (ctx : Ctx) (generated_pages : ℕ) : Bool :=
  match ctx.options.test_pages with
  | some limit => generated_pages ≥ limit
  | none => false

/-- `LayoutEngine::finalize_page` (source: `layout_engine.rs`): push the
in-progress page if it holds a glyph, reset the slot counter, bump the page
number, clear the glyphs and restamp number/title.  The line list of the
in-progress page is not touched. -/
def finalize_page (ctx : Ctx) (title_text : String) (s : MachineState) : MachineState :=
  let pushed :=
    if s.current.glyphs ≠ [] then
      { s with pages := s.pages ++ [s.current], generated := s.generated + 1 }
    else s
  { pushed with
    pcnt := 0
    next_page_number := pushed.next_page_number + 1
    current := { pushed.current with
      glyphs := []
      number := pushed.next_page_number + 1
      title := title_text } }

/-- `LayoutEngine::skip_row_padding` (source: `layout_engine.rs`): consume up
to `row_num - 1` characters of embedded row padding. -/
def skip_row_padding (ctx : Ctx) (chars : List Char) : List Char :=
  if ctx.book.row_num = 0 then chars
  else chars.drop (ctx.book.row_num - 1)

/-- `LayoutEngine::should_skip_bookline_char` (source: `layout_engine.rs`). -/
def should_skip_bookline_char (ctx : Ctx) (ch : Char) : Bool :=
  ctx.book.book_line_flag && (ch = '《' || ch = '》')

/-- `LayoutEngine::comment_char_consumes_slot` (source: `layout_engine.rs`). -/
def comment_char_consumes_slot (ctx : Ctx) (ch : Char) : Bool :=
  if should_skip_bookline_char ctx ch then false
  else ! ctx.book.punctuation.comment_nop.chars.contains ch

/-- `LayoutEngine::count_comment_slots` (source: `layout_engine.rs`):
`ceil(consuming / 2)` slot-pairs for the remaining queue. -/
def count_comment_slots (ctx : Ctx) (queue : List Char) : ℕ :=
  ((queue.filter (fun ch => comment_char_consumes_slot ctx ch)).length + 1) / 2

/-- `LayoutEngine::try_convert_char` (source: `layout_engine.rs`): convert
through `zhconv`, keep the first character of the conversion, reject identity
conversions, then retry the stack. -/
def try_convert_char (ctx : Ctx) (ch : Char) (variant : ZhVariant) (stack : List ℕ) :
    Option (Char × FontPick) :=
  match ctx.zh variant ch with
  | [] => none
  | candidate :: _ =>
      if candidate = ch then none
      else (ctx.fonts.pick_font candidate stack).map (fun pick => (candidate, pick))

/-- `LayoutEngine::pick_with_try_st` (source: `layout_engine.rs`). -/
def pick_with_try_st (ctx : Ctx) (ch : Char) (stack : List ℕ) :
    Char × Option FontPick :=
  match ctx.fonts.pick_font ch stack with
  | some pick => (ch, some pick)
  | none =>
      if ¬ ctx.book.try_st then (ch, none)
      else
        match try_convert_char ctx ch .ZhHant stack with
        | some (alt, pick) => (alt, some pick)
        | none =>
            match try_convert_char ctx ch .ZhHans stack with
            | some (alt, pick) => (alt, some pick)
            | none => (ch, none)

/-- `LayoutEngine::build_text_glyph` (source: `layout_engine.rs`). -/
def build_text_glyph (ctx : Ctx) (pos : Cell) (ch0 : Char)
    (is_comment is_nop is_rot : Bool) : Option GlyphSpec :=
  let stack := if is_comment then ctx.fonts.comment_stack else ctx.fonts.text_stack
  let (ch, pick) :=
    match pick_with_try_st ctx ch0 stack with
    | (c, some p) => (c, some p)
    | (_, none) => ('□', ctx.fonts.pick_font '□' stack)
  pick.map (fun font_pick =>
    let font_size0 : ℚ :=
      if is_comment then font_pick.font.slot.comment_size else font_pick.font.slot.text_size
    let width : ℚ := if is_comment then ctx.layout.cw / 2 else ctx.layout.cw
    let fx0 := pos.x
    let fy0 := pos.y
    let color0 :=
      if is_comment then ctx.book.comment_font_color else ctx.book.text_font_color
    let color :=
      if ctx.book.text_modes.only_period && ch = '。' then
        ctx.book.text_modes.only_period_color.getD color0
      else color0
    let rotate0 := font_pick.font.slot.rotate_deg
    let fx1 := if ¬ is_nop ∧ ¬ is_rot then fx0 + (width - font_size0) / 2 else fx0
    let fy1 := if is_comment then fy0 + (ctx.layout.rh - font_size0) / 4 else fy0
    let adjN := if is_comment then ctx.book.punctuation.comment_nop else ctx.book.punctuation.text_nop
    let cwN : ℚ := if is_comment then ctx.layout.cw / 2 else ctx.layout.cw
    let font_size1 := if is_nop then font_size0 * adjN.scale else font_size0
    let fx2 := if is_nop then fx1 + cwN * adjN.offset_x else fx1
    let fy2 := if is_nop then fy1 - ctx.layout.rh * adjN.offset_y else fy1
    let adjR := if is_comment then ctx.book.punctuation.comment_rotate else ctx.book.punctuation.text_rotate
    let font_size2 := if is_rot then font_size1 * adjR.scale else font_size1
    let fx3 := if is_rot then fx2 + cwN * adjR.offset_x else fx2
    let fy3 := if is_rot then fy2 + ctx.layout.rh * adjR.offset_y else fy2
    let rotate1 : ℚ := if is_rot then -90 else rotate0
    { ch := ch
      font_idx := font_pick.slot_index
      font_size := font_size2
      x := fx3
      y := fy3
      rotate_deg := rotate1
      color := color })

/-- The wavy bookline underline emitted immediately left of a glyph at `pos`
(source: `layout_engine.rs`, the `LineSpec` literal repeated at every
bookline emission site). -/
def bookline_spec (ctx : Ctx) (bline : BookLineConfig) (pos : Cell) : LineSpec :=
  { x1 := pos.x - bline.width
    x2 := pos.x - bline.width
    y1 := pos.y - ctx.layout.rh * (3 / 10)
    y2 := pos.y + ctx.layout.rh * (7 / 10)
    width := bline.width
    color := bline.color
    wavy := true }

end Engine

namespace Engine

/-- The character pop loop of `render_comments` (source: `layout_engine.rs`):
pull characters until `take_pairs * 2` slot-consuming ones have been taken or
the queue empties; returns the taken characters and the rest of the queue. -/
def pop_chars (ctx : Ctx) : ℕ → List Char → (List Char × List Char)
  | _, [] => ([], [])
  | needed, c :: rest =>
      let needed' := if comment_char_consumes_slot ctx c then needed - 1 else needed
      if needed' = 0 ∨ rest = [] then ([c], rest)
      else
        let (l, r) := pop_chars ctx needed' rest
        (c :: l, r)

/-- The indices addressed by the position-fetch loops of `render_comments`
(source: `layout_engine.rs`, `for offset in 1..=take_pairs` fetching
`*pcnt + offset`), in order. -/
def fetched_indices (pcnt take_pairs : ℕ) : List ℕ :=
  (List.range take_pairs).map (fun off => pcnt + off + 1)

/-- Fetch the cells at the given indices, stopping at the first miss. -/
def fetch_from (tbl : List Cell) : List ℕ → Option (List Cell)
  | [] => some []
  | i :: rest =>
      match tbl.get? i with
      | none => none
      | some c => (fetch_from tbl rest).map (fun cs => c :: cs)

/-- The position-fetch loops of `render_comments` (source: `layout_engine.rs`,
`for offset in 1..=take_pairs`): `none` when any index misses the table. -/
def fetch_cells (tbl : List Cell) (pcnt take_pairs : ℕ) : Option (List Cell) :=
  fetch_from tbl (fetched_indices pcnt take_pairs)

/-- Append the wavy bookline underline for `pos` when the bookline flag and
configuration call for it (source: `layout_engine.rs`, the repeated
`if *bookline_active && book_line_flag && ch != ' '` block). -/
def maybe_bookline (ctx : Ctx) (bl : Bool) (ch : Char) (pos : Cell)
    (ls : List LineSpec) : List LineSpec :=
  if bl ∧ ctx.book.book_line_flag ∧ ch ≠ ' ' then
    match ctx.book.bookline with
    | some bline => ls ++ [bookline_spec ctx bline pos]
    | none => ls
  else ls

/-- The `slot_needed == 0` drain of `render_comments` (source:
`layout_engine.rs`): attach remaining non-slot marks at the last assigned
position, dropping everything else. -/
def drain_nops (ctx : Ctx) (clast : Option Cell) :
    List GlyphSpec → List Char → List GlyphSpec
  | gs, [] => gs
  | gs, ch :: rest =>
      if should_skip_bookline_char ctx ch then drain_nops ctx clast gs rest
      else
        match clast with
        | some last =>
            if ctx.book.punctuation.comment_nop.chars.contains ch then
              drain_nops ctx clast
                (gs ++ (build_text_glyph ctx last ch true true false).toList) rest
            else drain_nops ctx clast gs rest
        | none => drain_nops ctx clast gs rest

/-- Result of the assignment walk over one taken batch of comment
characters. -/
structure AssignResult where
  glyphs : List GlyphSpec
  lines : List LineSpec
  clast : Option Cell
  cbl : Bool
  non_nop : ℕ
  requeue : Option (List Char)

/-- The assignment walk of `render_comments` (source: `layout_engine.rs`,
`for idx in 0..local_chars.len()`): route bookline toggles to the local flag,
non-slot marks to the last assigned position, and everything else to the next
fetched position; on position exhaustion the unplaced suffix is re-queued. -/
def assign_chars (ctx : Ctx) :
    List Char → List Cell → Option Cell → Bool →
    List GlyphSpec → List LineSpec → ℕ → AssignResult
  | [], _, clast, cbl, gs, ls, cnt => ⟨gs, ls, clast, cbl, cnt, none⟩
  | ch :: rest, cells, clast, cbl, gs, ls, cnt =>
      if ctx.book.book_line_flag ∧ ch = '《' then
        assign_chars ctx rest cells clast true gs ls cnt
      else if ctx.book.book_line_flag ∧ ch = '》' then
        assign_chars ctx rest cells clast false gs ls cnt
      else
        let is_rot := ctx.book.punctuation.comment_rotate.chars.contains ch
        let is_nop := ctx.book.punctuation.comment_nop.chars.contains ch
        if is_nop then
          let gs' :=
            match clast with
            | some last => gs ++ (build_text_glyph ctx last ch true true false).toList
            | none => gs
          assign_chars ctx rest cells clast cbl gs' ls cnt
        else
          match cells with
          | [] => ⟨gs, ls, clast, cbl, cnt, some (ch :: rest)⟩
          | pos :: cells' =>
              let gs' := gs ++ (build_text_glyph ctx pos ch true false is_rot).toList
              let ls' := maybe_bookline ctx cbl ch pos ls
              assign_chars ctx rest cells' (some pos) cbl gs' ls' (cnt + 1)

/-- Result of one iteration of the `'outer` loop of `render_comments`:
stop the loop, fail, or continue with updated loop state. -/
inductive RcRes where
  | done : MachineState → RcRes
  | fail : String → RcRes
  | next : List Char → Option Cell → Bool → MachineState → RcRes

/-- One iteration of the `'outer` loop of `render_comments` (source:
`layout_engine.rs`), for a non-empty remaining queue. -/
def rc_step (ctx : Ctx) (title_text : String) (remaining : List Char)
    (clast : Option Cell) (cbl : Bool) (s : MachineState) : RcRes :=
  if s.pcnt ≥ ctx.layout.per_page then
    .next remaining none cbl (finalize_page ctx title_text s)
  else if ctx.layout.rows_per_column = 0 then
    -- models the usize remainder failure of `*pcnt % rows_per_column`
    .fail "rows_per_column is zero"
  else
    let rpc := ctx.layout.rows_per_column
    let row_idx := s.pcnt % rpc + 1
    let slots_in_column := rpc - (row_idx - 1)
    if slots_in_column = 0 then
      .next remaining none cbl (finalize_page ctx title_text s)
    else
      let slot_needed := count_comment_slots ctx remaining
      if slot_needed = 0 then
        .done { s with current := { s.current with
            glyphs := drain_nops ctx clast s.current.glyphs remaining } }
      else
        let take_pairs := min slots_in_column slot_needed
        if s.pcnt + take_pairs > ctx.layout.per_page then
          .next remaining none cbl (finalize_page ctx title_text s)
        else
          let popped := pop_chars ctx (take_pairs * 2) remaining
          let local_chars := popped.1
          let rest := popped.2
          match fetch_cells ctx.layout.pos_r s.pcnt take_pairs,
                fetch_cells ctx.layout.pos_l s.pcnt take_pairs with
          | some rcells, some lcells =>
              let res := assign_chars ctx local_chars (rcells ++ lcells) clast cbl
                  s.current.glyphs s.current.lines 0
              let s' := { s with current := { s.current with
                  glyphs := res.glyphs, lines := res.lines } }
              (match res.requeue with
              | some back => .next (back ++ rest) res.clast res.cbl s'
              | none =>
                  if res.non_nop = 0 then .next rest res.clast res.cbl s'
                  else .next rest res.clast res.cbl
                    { s' with pcnt := s'.pcnt + (res.non_nop + 1) / 2 })
          | _, _ =>
              .next (local_chars ++ rest) none cbl (finalize_page ctx title_text s)

/-- The `'outer` loop of `render_comments` (source: `layout_engine.rs`):
iterate `rc_step` until the queue empties or the step stops.  The fuel
argument bounds the number of outer iterations; exhausting it yields an
error, so `ok` results correspond to terminating runs. -/
def rc_loop (ctx : Ctx) (title_text : String) :
    ℕ → List Char → Option Cell → Bool → MachineState →
    Except String (MachineState × List Char)
  | _, [], _, _, s => .ok (s, [])
  | 0, _ :: _, _, _, _ => .error "comment loop fuel exhausted"
  | fuel + 1, remaining@(_ :: _), clast, cbl, s =>
      match rc_step ctx title_text remaining clast cbl s with
      | .done s' => .ok (s', [])
      | .fail e => .error e
      | .next rem' clast' cbl' s' => rc_loop ctx title_text fuel rem' clast' cbl' s'

/-- `LayoutEngine::render_comments` (source: `layout_engine.rs`): drain the
queue into the loop; the second component is whatever un-packable remainder
is handed back to the caller's queue. -/
def render_comments (ctx : Ctx) (title_text : String) (fuel : ℕ)
    (queue : List Char) (s : MachineState) :
    Except String (MachineState × List Char) :=
  if queue = [] then .ok (s, [])
  else rc_loop ctx title_text fuel queue none false s

/-- The bracket collection of the `'【'` arm of `process_entry` (source:
`layout_engine.rs`): take characters up to the matching `'】'`, which is
consumed. -/
def collect_comment : List Char → (List Char × List Char)
  | [] => ([], [])
  | c :: rest =>
      if c = '】' then ([], rest)
      else
        let p := collect_comment rest
        (c :: p.1, p.2)

/-- Result of one iteration of the character loop of `process_entry`: return
from the whole routine (the page-cap `break` paths), fail, or continue with
updated loop state. -/
inductive PeRes where
  | halt : MachineState → Bool → PeRes
  | fail : String → PeRes
  | next : List Char → Option Cell → List Char → MachineState → Bool → PeRes

/-- The ordinary-character tail of the `process_entry` loop body (source:
`layout_engine.rs`, the code after the control-marker `match`): classify the
character as plain, non-slot mark or rotated mark, finalize a full page
first, place the glyph and apply the page-boundary orphan-mark rule.
`bl'` is the bookline flag after the fall-through toggle. -/
def pe_ordinary (ctx : Ctx) (title_text : String) (ch : Char)
    (rest : List Char) (last_pos : Option Cell) (queue : List Char)
    (s : MachineState) (bl' : Bool) : PeRes :=
    let is_nop := ctx.book.punctuation.text_nop.chars.contains ch
    let is_rot := ctx.book.punctuation.text_rotate.chars.contains ch
    let consumes_slot := ¬ is_nop
    let fin := consumes_slot ∧ s.pcnt = ctx.layout.per_page
    let s1 := if fin then finalize_page ctx title_text s else s
    let last1 := if fin then none else last_pos
    if fin ∧ reached_limit ctx s1.generated then .halt s1 bl'
    else if is_rot then
      let pcnt' := s1.pcnt + 1
      match Layout.pos_left ctx.layout pcnt' with
      | none => .fail "layout index out of range"
      | some pos =>
          match build_text_glyph ctx pos ch false false true with
          | some glyph =>
              let s2 := { s1 with pcnt := pcnt', current := { s1.current with
                  glyphs := s1.current.glyphs ++ [glyph],
                  lines := maybe_bookline ctx bl' ch pos s1.current.lines } }
              .next rest (some pos) queue s2 bl'
          | none => .next rest last1 queue { s1 with pcnt := pcnt' } bl'
    else if is_nop then
      let pos_prev :=
        (match last1 with
         | some c => some c
         | none => Layout.pos_left ctx.layout (max s1.pcnt 1)).getD ⟨0, 0⟩
      let s2 := { s1 with current := { s1.current with
          glyphs := s1.current.glyphs
            ++ (build_text_glyph ctx pos_prev ch false true false).toList } }
      .next rest last1 queue s2 bl'
    else
      let pcnt' := s1.pcnt + 1
      match Layout.pos_left ctx.layout pcnt' with
      | none => .fail "layout index out of range"
      | some pos =>
          let placed :=
            match build_text_glyph ctx pos ch false false false with
            | some glyph =>
                ({ s1 with pcnt := pcnt', current := { s1.current with
                    glyphs := s1.current.glyphs ++ [glyph],
                    lines := maybe_bookline ctx bl' ch pos s1.current.lines } },
                  some pos)
            | none => ({ s1 with pcnt := pcnt' }, last1)
          let s2 := placed.1
          let last2 := placed.2
          if pcnt' = ctx.layout.per_page then
            match rest with
            | next1 :: rest2 =>
                if ctx.book.punctuation.text_nop.chars.contains next1 then
                  let pos_prev := last2.getD pos
                  let s3 := { s2 with current := { s2.current with
                      glyphs := s2.current.glyphs
                        ++ (build_text_glyph ctx pos_prev next1 false true false).toList } }
                  .next rest2 last2 queue s3 bl'
                else .next rest last2 queue s2 bl'
            | [] => .next rest last2 queue s2 bl'
          else .next rest last2 queue s2 bl'

/-- One iteration of the character loop of `LayoutEngine::process_entry`
(source: `layout_engine.rs`), processing `ch` with `rest` still pending.
`cfuel` is handed to every comment-layout invocation. -/
def pe_step (ctx : Ctx) (title_text : String) (cfuel : ℕ) (ch : Char)
    (rest : List Char) (last_pos : Option Cell) (queue : List Char)
    (s : MachineState) (bl : Bool) : PeRes :=
  if ch = '\n' ∨ ch = '\r' then .next rest last_pos queue s bl
  else if ch = '%' then
    let rest' := skip_row_padding ctx rest
    let s' := finalize_page ctx title_text s
    if reached_limit ctx s'.generated then .halt s' bl
    else .next rest' none queue s' bl
  else if ch = '$' then
    let rest' := skip_row_padding ctx rest
    let half := ctx.layout.per_page / 2
    let s' :=
      if s.pcnt = 0 ∨ s.pcnt = half then s
      else if s.pcnt < half then { s with pcnt := half }
      else { s with pcnt := ctx.layout.per_page }
    .next rest' last_pos queue s' bl
  else if ch = '^' ∧ ctx.layout.multirows_bands > 1 then
    let band := ctx.layout.columns * ctx.layout.rows_per_column
    if band = 0 then
      -- models the usize division failure of `(*pcnt) / band`
      .fail "band size is zero"
    else
      let next_band_start := (s.pcnt / band + 1) * band
      let s' :=
        if next_band_start < ctx.layout.per_page then { s with pcnt := next_band_start }
        else { s with pcnt := ctx.layout.per_page }
      .next rest none queue s' bl
  else if ch = '&' then
    let rest' := skip_row_padding ctx rest
    if ctx.layout.rows_per_column = 0 then .next rest' last_pos queue s bl
    else
      let last_col_start := ctx.layout.per_page - ctx.layout.rows_per_column
      let threshold := last_col_start + 1
      let s' := if s.pcnt ≤ threshold then { s with pcnt := last_col_start } else s
      .next rest' last_pos queue s' bl
  else if ch = '《' ∧ ctx.book.book_line_flag then .next rest last_pos queue s true
  else if ch = '》' ∧ ctx.book.book_line_flag then .next rest last_pos queue s false
  else if ch = '【' then
    let p := collect_comment rest
    let queue' := queue ++ p.1
    if queue' = [] then .next p.2 last_pos queue' s bl
    else
      match render_comments ctx title_text cfuel queue' s with
      | .error e => .fail e
      | .ok r => .next p.2 none r.2 r.1 bl
  else
    -- `《`/`》` with the bookline feature disabled toggle the flag and then
    -- fall through to ordinary-character processing, as does `^` when
    -- banding is disabled.
    let bl' := if ch = '《' then true else if ch = '》' then false else bl
    pe_ordinary ctx title_text ch rest last_pos queue s bl'

/-- The character loop of `LayoutEngine::process_entry` (source:
`layout_engine.rs`): iterate `pe_step` over the stream.  `fuel` bounds the
iteration count (each iteration consumes at least one character, so the
entry length suffices). -/
def pe_loop (ctx : Ctx) (title_text : String) (cfuel : ℕ) :
    ℕ → List Char → Option Cell → List Char → MachineState → Bool →
    Except String (MachineState × Bool)
  | _, [], _, _, s, bl => .ok (s, bl)
  | 0, _ :: _, _, _, _, _ => .error "character loop fuel exhausted"
  | fuel + 1, ch :: rest, last_pos, queue, s, bl =>
      match pe_step ctx title_text cfuel ch rest last_pos queue s bl with
      | .halt s' b' => .ok (s', b')
      | .fail e => .error e
      | .next rest' last' q' s' bl' => pe_loop ctx title_text cfuel fuel rest' last' q' s' bl'

/-- `LayoutEngine::process_entry` (source: `layout_engine.rs`): run the
character loop over the whole entry; the entry length bounds the iteration
count since every iteration consumes at least one character. -/
def process_entry (ctx : Ctx) (entry : List Char) (title_text : String)
    (cfuel : ℕ) (s : MachineState) (bl : Bool) :
    Except String (MachineState × Bool) :=
  pe_loop ctx title_text cfuel entry.length entry none [] s bl

end Engine

namespace Typesetter

open Engine

/-- `Typesetter::compute_entry_title` (source: `typesetter.rs`): book title
plus computed chapter-title text. -/
def compute_entry_title (ctx : Ctx) (idx : ℕ) : String :=
  match ctx.book.title_style.suffix_str with
  | none => ctx.book.title
  | some p0 =>
      let cid := if ctx.corpus.has_text000 then idx - 1 else idx
      let p :=
        if cid = 0 then "序"
        else if ctx.corpus.has_text999 ∧ idx = ctx.corpus.total_entries then "附"
        else if p0.contains 'X' then p0.replace "X" (ctx.numerals.render cid)
        else p0
      ctx.book.title ++ p

/-- The full assembler state: the shared engine state plus the
bookline-active flag and the accumulated outline list of
`Typesetter::build_plan`. -/
structure TsState where
  ms : MachineState
  bookline : Bool
  outlines : List OutlineEntry
deriving DecidableEq, Repr

/-- The flush-or-stamp prologue of one chapter iteration of `build_plan`
(source: `typesetter.rs`, the `if !current_page.glyphs.is_empty()` block):
push a non-empty in-progress page and start a fresh one, or restamp the
title onto the still-empty page.  The boolean records whether the page cap
stopped the run (`break`). -/
def chapter_prologue (ctx : Ctx) (title_text : String) (s : MachineState) :
    MachineState × Bool :=
  if s.current.glyphs ≠ [] then
    let fresh : PagePlan :=
      { number := s.next_page_number + 1, title := title_text
        glyphs := [], lines := [] }
    let sA := { s with pages := s.pages ++ [s.current]
                       generated := s.generated + 1
                       current := fresh }
    if reached_limit ctx sA.generated then (sA, true)
    else ({ sA with next_page_number := sA.next_page_number + 1, pcnt := 0 }, false)
  else ({ s with current := { s.current with title := title_text } }, false)

/-- The chapter loop of `Typesetter::build_plan` (source: `typesetter.rs`,
`for idx in self.options.from..=self.options.to`), recursing on the number of
remaining chapter ordinals. -/
def ts_loop (ctx : Ctx) (cfuel : ℕ) : ℕ → ℕ → TsState → Except String TsState
  | 0, _, ts => .ok ts
  | k + 1, idx, ts => do
      let entry ← ctx.corpus.entry idx
      let title_text := compute_entry_title ctx idx
      let step := chapter_prologue ctx title_text ts.ms
      if step.2 then .ok { ts with ms := step.1 }
      else
        let s1 := step.1
        let outl := ts.outlines ++ [⟨title_text, s1.next_page_number⟩]
        let r ← process_entry ctx entry.data title_text cfuel s1 ts.bookline
        let ts2 : TsState := ⟨r.1, r.2, outl⟩
        if reached_limit ctx r.1.generated then .ok ts2
        else ts_loop ctx cfuel k (idx + 1) ts2

/-- The fresh assembler state at the start of `build_plan` (source:
`typesetter.rs`, the initial state set up by `build_plan`). -/
def init_ts : TsState :=
  ⟨{ current := { number := 1, title := "", glyphs := [], lines := [] }
     pages := [], pcnt := 0, generated := 0, next_page_number := 1 }, false, []⟩

/-- The cover-mode selection of `build_plan` (source: `typesetter.rs`,
the `match &self.options.cover_image` at the top of `build_plan`). -/
def cover_of (options : TypesetOptions) : CoverPlan × Option String :=
  match options.cover_image with
  | some path => (CoverPlan.Image, some path)
  | none => (CoverPlan.Generated, none)

/-- `Typesetter::build_plan` (source: `typesetter.rs`). -/
def build_plan (ctx : Ctx) (cfuel : ℕ) : Except String DocumentPlan := do
  let cover := cover_of ctx.options
  let ts ← ts_loop ctx cfuel (ctx.options.to_idx + 1 - ctx.options.from_idx)
    ctx.options.from_idx init_ts
  let pages :=
    if ts.ms.current.glyphs ≠ [] ∧ ¬ reached_limit ctx ts.ms.generated then
      ts.ms.pages ++ [ts.ms.current]
    else ts.ms.pages
  return { cover := cover.1, cover_path := cover.2, pages := pages, outlines := ts.outlines }

end Typesetter

namespace DocumentPlan

/-- The page-number walk of `DocumentPlan::validate` (source: `plan.rs`):
numbers must be non-zero and strictly increasing; returns the set of numbers
seen. -/
def validatePages : List PagePlan → ℕ → List ℕ → Except String (List ℕ)
  | [], _, seen => .ok seen
  | page :: rest, last_page, seen =>
      if page.number = 0 then .error "page number cannot be 0"
      else if page.number ≤ last_page then .error "page numbers must be strictly increasing"
      else validatePages rest page.number (seen ++ [page.number])

/-- `DocumentPlan::validate` (source: `plan.rs`). -/
def validate (plan : DocumentPlan) : Except String Unit := do
  if plan.cover = CoverPlan.Image ∧ plan.cover_path = none then
    throw "cover plan requests an image but no cover_path was recorded"
  let seen ← validatePages plan.pages 0 []
  for outline in plan.outlines do
    if ¬ seen.contains outline.page_number then
      throw "outline references missing page"
  return ()

end DocumentPlan

/-! Invariants and spec-side predicates used by the theorems below. -/

/-- The emitted-pages invariant: page numbers strictly increasing, positive,
below `bound`, and no page without glyphs. -/
def PagesGood (pages : List PagePlan) (bound : ℕ) : Prop :=
  List.Pairwise (· < ·) (pages.map PagePlan.number) ∧
  ∀ p ∈ pages, 0 < p.number ∧ p.glyphs ≠ [] ∧ p.number < bound

/-- The weak machine invariant: emitted pages are good and numbered strictly
below the in-progress page. -/
def InvW (s : MachineState) : Prop :=
  PagesGood s.pages s.current.number ∧ 0 < s.current.number

/-- The strong machine invariant: additionally the in-progress page carries
the current page-number counter. -/
def MInv (s : MachineState) : Prop :=
  InvW s ∧ s.current.number = s.next_page_number

/-- Page number `n` is covered: it is already emitted, or it is the number of
the in-progress page and that page holds a glyph (so it will be emitted). -/
def Covered (s : MachineState) (n : ℕ) : Prop :=
  (∃ p ∈ s.pages, p.number = n) ∨ (s.current.number = n ∧ s.current.glyphs ≠ [])

/-- The empty-page/slot-counter link: an in-progress page without glyphs has
a zero slot counter.  Holds for marker-free chapter streams rendered with a
total font stack. -/
def EmptyZero (s : MachineState) : Prop :=
  s.current.glyphs = [] → s.pcnt = 0

/-- The control markers (and newline no-ops) of the pagination engine's
character loop. -/
def plainMarkers : List Char := ['%', '$', '^', '&', '《', '》', '【', '】', '\n', '\r']

/-! Concrete fixtures for witnesses and counterexamples. -/

/-- An empty mark-adjustment table. -/
def mark0 : MarkAdjust := ⟨[], 1, 0, 0⟩

/-- Punctuation configuration with all tables empty. -/
def punct0 : PunctuationConfig := ⟨mark0, mark0, mark0, mark0, []⟩

/-- A minimal book configuration. -/
def book0 : BookConfig :=
  { title := "書", row_num := 2, row_delta_y := 0, try_st := false
    text_font_color := ⟨0, 0, 0⟩, comment_font_color := ⟨0, 0, 0⟩
    title_style := ⟨false, none, false⟩, text_modes := ⟨false, none⟩
    punctuation := punct0, bookline := none, book_line_flag := false }

/-- A font whose coverage is total. -/
def font0 : LoadedFont := ⟨⟨1, "f", 0, 1, 1⟩, fun _ => true⟩

/-- A one-slot font manager backed by `font0`. -/
def fonts0 : FontManager := ⟨[some font0], [1], [1]⟩

/-- `n` cells in a row, for building concrete position tables. -/
def cells (n : ℕ) : List Cell := (List.range n).map (fun i => ⟨(i : ℚ), 0⟩)

/-- A two-slot single-column layout (no banding). -/
def layout2 : Layout :=
  { per_page := 2, pos_l := cells 3, pos_r := cells 3, cw := 1, rh := 1
    canvas_width := 10, canvas_height := 10, margins_top := 0, margins_bottom := 0
    rows_per_column := 2, columns := 1, multirows_bands := 1 }

/-- A forty-slot layout with twenty rows per column and two columns. -/
def layout40 : Layout :=
  { per_page := 40, pos_l := cells 41, pos_r := cells 41, cw := 1, rh := 1
    canvas_width := 10, canvas_height := 10, margins_top := 0, margins_bottom := 0
    rows_per_column := 20, columns := 2, multirows_bands := 1 }

/-- A numeral table with no entries. -/
def numerals0 : NumeralMap := ⟨fun _ => none⟩

/-- The identity script-conversion capability. -/
def zh0 : ZhVariant → Char → List Char := fun _ c => [c]

/-- A corpus whose single chapter (ordinal 1) is empty. -/
def corpusE : TextCorpus := ⟨[none, some ⟨"001.txt", 1, []⟩], false, false⟩

/-- A corpus whose single chapter (ordinal 1) is the two plain characters
`ab`. -/
def corpusAB : TextCorpus := ⟨[none, some ⟨"001.txt", 1, ['a', 'b']⟩], false, false⟩

/-- Options selecting exactly chapter 1, no page cap. -/
def opts11 : TypesetOptions := ⟨1, 1, none, false, none⟩

/-- Context with the empty chapter: used to exhibit an outline entry whose
page is never materialized. -/
def ctxE : Ctx := ⟨book0, layout2, fonts0, numerals0, corpusE, opts11, zh0⟩

/-- Context with the two-character chapter. -/
def ctxAB : Ctx := ⟨book0, layout2, fonts0, numerals0, corpusAB, opts11, zh0⟩

/-- Context used for the comment-packing witness. -/
def ctx40 : Ctx := ⟨book0, layout40, fonts0, numerals0, corpusE, opts11, zh0⟩

/-- The fresh machine state at the start of a run. -/
def state0 : MachineState :=
  ⟨{ number := 1, title := "", glyphs := [], lines := [] }, [], 0, 0, 1⟩

/-- The document plan the empty-chapter run produces. -/
def planE : DocumentPlan := ⟨.Generated, none, [], [⟨"書", 1⟩]⟩

/-- Fallback plan value used to name computed plans. -/
def plan0 : DocumentPlan := ⟨.Generated, none, [], []⟩

/-- The plan computed for the `ab` chapter. -/
def planAB : DocumentPlan := (Typesetter.build_plan ctxAB 1).toOption.getD plan0

/-- Book configuration with four rows, used for geometry fixtures. -/
def bookG : BookConfig := { book0 with row_num := 4 }

/-- A canvas whose margins exceed the canvas width. -/
def canvasBad : CanvasConfig :=
  { canvas_width := 10, canvas_height := 10, margins_top := 1, margins_bottom := 1
    margins_left := 100, margins_right := 50, leaf_col := 2, leaf_center_width := 1 }

/-- A well-formed canvas with an odd column count. -/
def canvasOdd : CanvasConfig :=
  { canvas_width := 100, canvas_height := 100, margins_top := 5, margins_bottom := 5
    margins_left := 5, margins_right := 5, leaf_col := 3, leaf_center_width := 2 }

/-- Fallback layout value used to name computed layouts. -/
def layout0 : Layout :=
  { per_page := 0, pos_l := [], pos_r := [], cw := 0, rh := 0
    canvas_width := 0, canvas_height := 0, margins_top := 0, margins_bottom := 0
    rows_per_column := 0, columns := 0, multirows_bands := 0 }

/-- The layout built for `bookG`/`canvasOdd` in page-split banding with two
bands (odd column count exercises the `HorizontalPage` halving). -/
def layoutOdd : Layout :=
  (Layout.build bookG canvasOdd (.HorizontalPage 2)).toOption.getD layout0

/-- A junk glyph used as a `getD` fallback. -/
def glyph0 : GlyphSpec := ⟨' ', 0, 0, 0, 0, 0, ⟨0, 0, 0⟩⟩

/-- The cell addressed by slot 1 of `layout2`. -/
def posSlot1 : Cell := ⟨1, 0⟩

/-- The glyph the engine draws for `^` at slot 1 of `layout2`. -/
def caretGlyph : GlyphSpec :=
  (Engine.build_text_glyph ctxAB posSlot1 '^' false false false).getD glyph0

theorem count_all (ctx : Ctx) (queue : List Char)
    (hall : ∀ c ∈ queue, Engine.comment_char_consumes_slot ctx c = true) :
    Engine.count_comment_slots ctx queue = (queue.length + 1) / 2 := by
  unfold Engine.count_comment_slots
  rw [List.filter_eq_self.mpr hall]

theorem pop_chars_all (ctx : Ctx) (queue : List Char) :
    ∀ needed, queue ≠ [] →
    (∀ c ∈ queue, Engine.comment_char_consumes_slot ctx c = true) →
    queue.length ≤ needed →
    Engine.pop_chars ctx needed queue = (queue, []) := by
  induction queue with
  | nil => intro needed hne; exact absurd rfl hne
  | cons c rest ih =>
      intro needed _ hall hlen
      have hc : Engine.comment_char_consumes_slot ctx c = true := hall c (by simp)
      by_cases hrest : rest = []
      · subst hrest
        simp [Engine.pop_chars, hc]
      · have hlen' : rest.length ≤ needed - 1 := by
          simp at hlen
          omega
        have hne0 : ¬ (needed - 1 = 0 ∨ rest = []) := by
          have : 1 ≤ rest.length := by
            cases rest with
            | nil => exact absurd rfl hrest
            | cons _ _ => simp
          push_neg
          exact ⟨by omega, hrest⟩
        simp only [Engine.pop_chars, hc, if_pos, if_neg, hne0, if_false]
        rw [ih (needed - 1) hrest (fun x hx => hall x (by simp [hx])) hlen']

theorem fetch_from_all (tbl : List Cell) (idxs : List ℕ)
    (h : ∀ i ∈ idxs, i < tbl.length) :
    ∃ cs, Engine.fetch_from tbl idxs = some cs ∧ cs.length = idxs.length := by
  induction idxs with
  | nil => exact ⟨[], rfl, rfl⟩
  | cons i rest ih =>
      have hi : i < tbl.length := h i (by simp)
      obtain ⟨cs, hcs, hlen⟩ := ih (fun j hj => h j (by simp [hj]))
      have hget : tbl[i]? = some tbl[i] := List.getElem?_eq_getElem hi
      exact ⟨tbl[i] :: cs,
        by simp [Engine.fetch_from, hget, hcs], by simp [hlen]⟩

theorem assign_all (ctx : Ctx) (chars : List Char) :
    ∀ (cells : List Cell) (clast : Option Cell) (cbl : Bool)
      (gs : List GlyphSpec) (ls : List LineSpec) (cnt : ℕ),
    (∀ c ∈ chars, Engine.comment_char_consumes_slot ctx c = true) →
    chars.length ≤ cells.length →
    ∃ gs' ls' clast',
      Engine.assign_chars ctx chars cells clast cbl gs ls cnt =
        ⟨gs', ls', clast', cbl, cnt + chars.length, none⟩ := by
  induction chars with
  | nil =>
      intro cells clast cbl gs ls cnt _ _
      exact ⟨gs, ls, clast, rfl⟩
  | cons c rest ih =>
      intro cells clast cbl gs ls cnt hall hlen
      have hc : Engine.comment_char_consumes_slot ctx c = true := hall c (by simp)
      have hskip : Engine.should_skip_bookline_char ctx c = false := by
        by_contra hh
        have h1 : Engine.should_skip_bookline_char ctx c = true := by
          simpa using hh
        simp [Engine.comment_char_consumes_slot, h1] at hc
      have hnop : ctx.book.punctuation.comment_nop.chars.contains c = false := by
        simp only [Engine.comment_char_consumes_slot, hskip, if_false,
          Bool.if_false_left] at hc
        simpa using hc
      have htog : ¬ (ctx.book.book_line_flag ∧ c = '《') ∧
          ¬ (ctx.book.book_line_flag ∧ c = '》') := by
        unfold Engine.should_skip_bookline_char at hskip
        constructor <;> rintro ⟨hf, hcc⟩ <;> subst hcc <;> simp [hf] at hskip
      cases cells with
      | nil => simp at hlen
      | cons pos cells' =>
          obtain ⟨gs', ls', clast', hrec⟩ :=
            ih cells' (some pos) cbl
              (gs ++ (Engine.build_text_glyph ctx pos c true false
                (ctx.book.punctuation.comment_rotate.chars.contains c)).toList)
              (Engine.maybe_bookline ctx cbl c pos ls) (cnt + 1)
              (fun x hx => hall x (by simp [hx])) (by simp at hlen ⊢; omega)
          refine ⟨gs', ls', clast', ?_⟩
          have hnop' : c ∉ ctx.book.punctuation.comment_nop.chars := by
            simpa using hnop
          simp only [Engine.assign_chars, htog.1, htog.2, if_neg, if_false]
          rw [if_neg (by simpa using hnop'), hrec]
          have hcount : cnt + 1 + rest.length = cnt + (rest.length + 1) := by omega
          simp [hcount]

/-- C7: a comment block of K slot-consuming characters laid out inside one
column advances the slot counter by exactly (K+1)/2, and every fetched grid
index lies in [1, capacity]. -/
theorem c7_comment_packing (ctx : Ctx) (title : String) (fuel : ℕ) (queue : List Char) (s : MachineState)
    (hne : queue ≠ [])
    (hall : ∀ c ∈ queue, Engine.comment_char_consumes_slot ctx c = true)
    (hrpc : 0 < ctx.layout.rows_per_column)
    (hlt : s.pcnt < ctx.layout.per_page)
    (hcol : (queue.length + 1) / 2 ≤
      ctx.layout.rows_per_column - s.pcnt % ctx.layout.rows_per_column)
    (hcap : s.pcnt + (queue.length + 1) / 2 ≤ ctx.layout.per_page)
    (hlen_r : ctx.layout.per_page < ctx.layout.pos_r.length)
    (hlen_l : ctx.layout.per_page < ctx.layout.pos_l.length)
    (hfuel : 0 < fuel) :
    (∃ s', Engine.render_comments ctx title fuel queue s = .ok (s', []) ∧
      s'.pcnt = s.pcnt + (queue.length + 1) / 2 ∧
      s'.pages = s.pages) ∧
    (∀ idx ∈ Engine.fetched_indices s.pcnt ((queue.length + 1) / 2),
      1 ≤ idx ∧ idx ≤ ctx.layout.per_page) := by
  have hKpos : 0 < queue.length := List.length_pos.mpr hne
  constructor
  · obtain ⟨f, rfl⟩ : ∃ f, fuel = f + 1 := ⟨fuel - 1, by omega⟩
    have hmodlt := Nat.mod_lt s.pcnt hrpc
    have hcount := count_all ctx queue hall
    have hpop := pop_chars_all ctx queue (((queue.length + 1) / 2) * 2) hne hall (by omega)
    have hidxr : ∀ i ∈ Engine.fetched_indices s.pcnt ((queue.length + 1) / 2),
        i < ctx.layout.pos_r.length := by
      intro i hi
      simp [Engine.fetched_indices] at hi
      obtain ⟨off, hoff, rfl⟩ := hi
      omega
    have hidxl : ∀ i ∈ Engine.fetched_indices s.pcnt ((queue.length + 1) / 2),
        i < ctx.layout.pos_l.length := by
      intro i hi
      simp [Engine.fetched_indices] at hi
      obtain ⟨off, hoff, rfl⟩ := hi
      omega
    obtain ⟨rcells, hfr, hlenr⟩ := fetch_from_all ctx.layout.pos_r _ hidxr
    obtain ⟨lcells, hfl, hlenl⟩ := fetch_from_all ctx.layout.pos_l _ hidxl
    have hlenidx : (Engine.fetched_indices s.pcnt ((queue.length + 1) / 2)).length
        = (queue.length + 1) / 2 := by
      simp [Engine.fetched_indices]
    obtain ⟨gs', ls', clast', hassign⟩ :=
      assign_all ctx queue (rcells ++ lcells) none false s.current.glyphs s.current.lines 0
        hall (by simp [hlenr, hlenl, hlenidx]; omega)
    obtain ⟨q0, qrest, rfl⟩ : ∃ q0 qrest, queue = q0 :: qrest := by
      cases queue with
      | nil => exact absurd rfl hne
      | cons a b => exact ⟨a, b, rfl⟩
    refine ⟨{ s with
        pcnt := s.pcnt + ((q0 :: qrest).length + 1) / 2
        current := { s.current with glyphs := gs', lines := ls' } }, ?_, rfl, rfl⟩
    have hmin : min (ctx.layout.rows_per_column - (s.pcnt % ctx.layout.rows_per_column + 1 - 1))
        (((q0 :: qrest).length + 1) / 2) = ((q0 :: qrest).length + 1) / 2 := by omega
    have hstep : Engine.rc_step ctx title (q0 :: qrest) none false s =
        .next [] clast' false
          { s with
            pcnt := s.pcnt + ((q0 :: qrest).length + 1) / 2
            current := { s.current with glyphs := gs', lines := ls' } } := by
      simp only [Engine.rc_step, Engine.fetch_cells, hcount, hmin, hpop, hfr, hfl, hassign]
      rw [if_neg (by omega)]
      rw [if_neg (by omega)]
      rw [if_neg (by omega)]
      rw [if_neg (by omega)]
      rw [if_neg (by omega)]
      rw [if_neg (by omega)]
      norm_num
    unfold Engine.render_comments
    rw [if_neg (by simp)]
    have hloop : Engine.rc_loop ctx title (f + 1) (q0 :: qrest) none false s =
        (match Engine.rc_step ctx title (q0 :: qrest) none false s with
        | .done s1 => .ok (s1, [])
        | .fail e => .error e
        | .next rem1 clast1 cbl1 s1 => Engine.rc_loop ctx title f rem1 clast1 cbl1 s1) := rfl
    rw [hloop, hstep]
    cases f <;> rfl
  · intro idx hidx
    simp [Engine.fetched_indices] at hidx
    obtain ⟨off, hoff, rfl⟩ := hidx
    omega

theorem MInv_congr (s s' : MachineState)
    (hpages : s'.pages = s.pages)
    (hnum : s'.current.number = s.current.number)
    (hnext : s'.next_page_number = s.next_page_number)
    (h : MInv s) : MInv s' := by
  unfold MInv InvW PagesGood at h ⊢
  rw [hpages, hnum, hnext]
  exact h

theorem finalize_inv (ctx : Ctx) (title : String) (s : MachineState)
    (h : MInv s) : MInv (Engine.finalize_page ctx title s) := by
  obtain ⟨⟨⟨hpair, hbound⟩, hpos⟩, heq⟩ := h
  unfold Engine.finalize_page
  by_cases hg : s.current.glyphs = []
  · simp only [hg, ne_eq, not_true_eq_false, if_false, ite_false]
    refine ⟨⟨⟨hpair, ?_⟩, ?_⟩, rfl⟩
    · intro p hp
      obtain ⟨h1, h2, h3⟩ := hbound p hp
      refine ⟨h1, h2, ?_⟩
      show p.number < s.next_page_number + 1
      omega
    · show 0 < s.next_page_number + 1
      omega
  · simp only [hg, ne_eq, not_false_eq_true, if_true, ite_true]
    refine ⟨⟨⟨?_, ?_⟩, ?_⟩, rfl⟩
    · show List.Pairwise (· < ·) (List.map PagePlan.number (s.pages ++ [s.current]))
      simp only [List.map_append, List.map_cons, List.map_nil]
      rw [List.pairwise_append]
      refine ⟨hpair, List.pairwise_singleton _ _, ?_⟩
      intro a ha b hb
      simp at hb
      subst hb
      simp at ha
      obtain ⟨p, hp, rfl⟩ := ha
      exact (hbound p hp).2.2
    · intro p hp
      have hp' : p ∈ s.pages ++ [s.current] := hp
      simp at hp'
      rcases hp' with hp' | hp'
      · obtain ⟨h1, h2, h3⟩ := hbound p hp'
        refine ⟨h1, h2, ?_⟩
        show p.number < s.next_page_number + 1
        omega
      · subst hp'
        refine ⟨by omega, hg, ?_⟩
        show s.current.number < s.next_page_number + 1
        omega
    · show 0 < s.next_page_number + 1
      omega

theorem RcNext_inv (a : List Char) (b : Option Cell) (c : Bool) (s' : MachineState)
    (hs : MInv s') :
    (∀ t, Engine.RcRes.next a b c s' = .done t → MInv t) ∧
    (∀ x y z t, Engine.RcRes.next a b c s' = .next x y z t → MInv t) := by
  constructor
  · intro t h
    cases h
  · intro x y z t h
    cases h
    exact hs

theorem RcDone_inv (s' : MachineState) (hs : MInv s') :
    (∀ t, Engine.RcRes.done s' = .done t → MInv t) ∧
    (∀ x y z t, Engine.RcRes.done s' = .next x y z t → MInv t) := by
  constructor
  · intro t h
    cases h
    exact hs
  · intro x y z t h
    cases h

theorem RcFail_inv (e : String) :
    (∀ t, Engine.RcRes.fail e = .done t → MInv t) ∧
    (∀ x y z t, Engine.RcRes.fail e = .next x y z t → MInv t) := by
  constructor
  · intro t h
    cases h
  · intro x y z t h
    cases h

theorem rc_step_inv (ctx : Ctx) (title : String) (remaining : List Char)
    (clast : Option Cell) (cbl : Bool) (s : MachineState) (hInv : MInv s)
    (r : Engine.RcRes) (hr : Engine.rc_step ctx title remaining clast cbl s = r) :
    (∀ s', r = .done s' → MInv s') ∧
    (∀ a b c s', r = .next a b c s' → MInv s') := by
  have hfin := finalize_inv ctx title s hInv
  unfold Engine.rc_step at hr
  split at hr
  · subst hr
    exact RcNext_inv _ _ _ _ hfin
  · split at hr
    · subst hr
      exact RcFail_inv _
    · simp only [] at hr
      split at hr
      · subst hr
        exact RcNext_inv _ _ _ _ hfin
      · split at hr
        · subst hr
          exact RcDone_inv _ (MInv_congr _ _ rfl rfl rfl hInv)
        · split at hr
          · subst hr
            exact RcNext_inv _ _ _ _ hfin
          · split at hr
            · split at hr
              · subst hr
                exact RcNext_inv _ _ _ _ (MInv_congr _ _ rfl rfl rfl hInv)
              · split at hr
                · subst hr
                  exact RcNext_inv _ _ _ _ (MInv_congr _ _ rfl rfl rfl hInv)
                · subst hr
                  exact RcNext_inv _ _ _ _ (MInv_congr _ _ rfl rfl rfl hInv)
            · subst hr
              exact RcNext_inv _ _ _ _ hfin

theorem rc_loop_inv (ctx : Ctx) (title : String) (fuel : ℕ) :
    ∀ (remaining : List Char) (clast : Option Cell) (cbl : Bool) (s : MachineState)
      (res : MachineState × List Char),
    MInv s → Engine.rc_loop ctx title fuel remaining clast cbl s = .ok res → MInv res.1 := by
  induction fuel with
  | zero =>
      intro remaining clast cbl s res hInv hrun
      cases remaining with
      | nil =>
          cases hrun
          exact hInv
      | cons a b => cases hrun
  | succ f ih =>
      intro remaining clast cbl s res hInv hrun
      cases remaining with
      | nil =>
          cases hrun
          exact hInv
      | cons a b =>
          have hloop : Engine.rc_loop ctx title (f + 1) (a :: b) clast cbl s =
              (match Engine.rc_step ctx title (a :: b) clast cbl s with
              | .done s1 => .ok (s1, [])
              | .fail e => .error e
              | .next rem1 clast1 cbl1 s1 =>
                  Engine.rc_loop ctx title f rem1 clast1 cbl1 s1) := rfl
          rw [hloop] at hrun
          cases hstep : Engine.rc_step ctx title (a :: b) clast cbl s with
          | done s1 =>
              rw [hstep] at hrun
              cases hrun
              exact (rc_step_inv ctx title (a :: b) clast cbl s hInv _ hstep).1 s1 rfl
          | fail e =>
              rw [hstep] at hrun
              cases hrun
          | next rem1 cl1 cb1 s1 =>
              rw [hstep] at hrun
              exact ih rem1 cl1 cb1 s1 res
                ((rc_step_inv ctx title (a :: b) clast cbl s hInv _ hstep).2 rem1 cl1 cb1 s1 rfl)
                hrun

theorem render_comments_inv (ctx : Ctx) (title : String) (fuel : ℕ)
    (queue : List Char) (s : MachineState) (res : MachineState × List Char)
    (hInv : MInv s)
    (hrun : Engine.render_comments ctx title fuel queue s = .ok res) : MInv res.1 := by
  unfold Engine.render_comments at hrun
  split at hrun
  · cases hrun
    exact hInv
  · exact rc_loop_inv ctx title fuel queue none false s res hInv hrun

theorem MInv_ite (c : Prop) [Decidable c] (a b : MachineState)
    (ha : MInv a) (hb : MInv b) : MInv (if c then a else b) := by
  split <;> assumption

theorem PeNext_inv (a : List Char) (b : Option Cell) (c : List Char)
    (s' : MachineState) (d : Bool) (hs : MInv s') :
    (∀ t e, Engine.PeRes.next a b c s' d = .halt t e → MInv t) ∧
    (∀ x y z t w, Engine.PeRes.next a b c s' d = .next x y z t w → MInv t) := by
  constructor
  · intro t e h
    cases h
  · intro x y z t w h
    cases h
    exact hs

theorem PeHalt_inv (s' : MachineState) (d : Bool) (hs : MInv s') :
    (∀ t e, Engine.PeRes.halt s' d = .halt t e → MInv t) ∧
    (∀ x y z t w, Engine.PeRes.halt s' d = .next x y z t w → MInv t) := by
  constructor
  · intro t e h
    cases h
    exact hs
  · intro x y z t w h
    cases h

theorem PeFail_inv (e0 : String) :
    (∀ t e, Engine.PeRes.fail e0 = .halt t e → MInv t) ∧
    (∀ x y z t w, Engine.PeRes.fail e0 = .next x y z t w → MInv t) := by
  constructor
  · intro t e h
    cases h
  · intro x y z t w h
    cases h

set_option maxHeartbeats 2000000 in
theorem pe_ordinary_inv (ctx : Ctx) (title : String) (ch : Char)
    (rest : List Char) (last_pos : Option Cell) (queue : List Char)
    (s : MachineState) (bl' : Bool) (hInv : MInv s)
    (r : Engine.PeRes)
    (hr : Engine.pe_ordinary ctx title ch rest last_pos queue s bl' = r) :
    (∀ t e, r = .halt t e → MInv t) ∧
    (∀ x y z t w, r = .next x y z t w → MInv t) := by
  have hfin := finalize_inv ctx title s hInv
  unfold Engine.pe_ordinary at hr
  try simp only [] at hr
  repeat' split at hr
  all_goals subst hr
  all_goals
    first
    | exact PeFail_inv _
    | exact PeHalt_inv _ _ hInv
    | exact PeHalt_inv _ _ hfin
    | exact PeHalt_inv _ _ (MInv_ite _ _ _ hfin hInv)
    | exact PeNext_inv _ _ _ _ _ hInv
    | exact PeNext_inv _ _ _ _ _ hfin
    | exact PeNext_inv _ _ _ _ _ (MInv_congr _ _ rfl rfl rfl hInv)
    | exact PeNext_inv _ _ _ _ _
        (MInv_congr _ _ rfl rfl rfl (MInv_ite _ _ _ hfin hInv))

set_option maxHeartbeats 2000000 in
theorem pe_step_inv (ctx : Ctx) (title : String) (cfuel : ℕ) (ch : Char)
    (rest : List Char) (last_pos : Option Cell) (queue : List Char)
    (s : MachineState) (bl : Bool) (hInv : MInv s)
    (r : Engine.PeRes)
    (hr : Engine.pe_step ctx title cfuel ch rest last_pos queue s bl = r) :
    (∀ t e, r = .halt t e → MInv t) ∧
    (∀ x y z t w, r = .next x y z t w → MInv t) := by
  have hfin := finalize_inv ctx title s hInv
  unfold Engine.pe_step at hr
  try simp only [] at hr
  repeat' split at hr
  all_goals
    first
    | exact pe_ordinary_inv ctx title ch rest last_pos queue s _ hInv r hr
    | (subst hr
       first
       | exact PeFail_inv _
       | exact PeHalt_inv _ _ hInv
       | exact PeHalt_inv _ _ hfin
       | exact PeNext_inv _ _ _ _ _ hInv
       | exact PeNext_inv _ _ _ _ _ hfin
       | exact PeNext_inv _ _ _ _ _ (MInv_congr _ _ rfl rfl rfl hInv)
       | (rename_i rr heq
          exact PeNext_inv _ _ _ _ _ (render_comments_inv ctx title cfuel _ s rr hInv heq)))

theorem pe_loop_inv (ctx : Ctx) (title : String) (cfuel : ℕ) (fuel : ℕ) :
    ∀ (chars : List Char) (last_pos : Option Cell) (queue : List Char)
      (s : MachineState) (bl : Bool) (res : MachineState × Bool),
    MInv s → Engine.pe_loop ctx title cfuel fuel chars last_pos queue s bl = .ok res →
    MInv res.1 := by
  induction fuel with
  | zero =>
      intro chars last_pos queue s bl res hInv hrun
      cases chars with
      | nil =>
          cases hrun
          exact hInv
      | cons a b => cases hrun
  | succ f ih =>
      intro chars last_pos queue s bl res hInv hrun
      cases chars with
      | nil =>
          cases hrun
          exact hInv
      | cons a b =>
          have hloop : Engine.pe_loop ctx title cfuel (f + 1) (a :: b) last_pos queue s bl =
              (match Engine.pe_step ctx title cfuel a b last_pos queue s bl with
              | .halt s' b' => .ok (s', b')
              | .fail e => .error e
              | .next rest' last' q' s' bl' =>
                  Engine.pe_loop ctx title cfuel f rest' last' q' s' bl') := rfl
          rw [hloop] at hrun
          cases hstep : Engine.pe_step ctx title cfuel a b last_pos queue s bl with
          | halt s1 b1 =>
              rw [hstep] at hrun
              cases hrun
              exact (pe_step_inv ctx title cfuel a b last_pos queue s bl hInv _ hstep).1 s1 b1 rfl
          | fail e =>
              rw [hstep] at hrun
              cases hrun
          | next rest1 last1 q1 s1 bl1 =>
              rw [hstep] at hrun
              exact ih rest1 last1 q1 s1 bl1 res
                ((pe_step_inv ctx title cfuel a b last_pos queue s bl hInv _ hstep).2
                  rest1 last1 q1 s1 bl1 rfl)
                hrun

theorem process_entry_inv (ctx : Ctx) (entry : List Char) (title : String)
    (cfuel : ℕ) (s : MachineState) (bl : Bool) (res : MachineState × Bool)
    (hInv : MInv s)
    (hrun : Engine.process_entry ctx entry title cfuel s bl = .ok res) :
    MInv res.1 := by
  unfold Engine.process_entry at hrun
  exact pe_loop_inv ctx title cfuel entry.length entry none [] s bl res hInv hrun

theorem except_bind_ok {ε α β : Type} (a : α) (f : α → Except ε β) :
    (Except.ok a >>= f) = f a := rfl

theorem except_bind_err {ε α β : Type} (e : ε) (f : α → Except ε β) :
    ((Except.error e : Except ε α) >>= f) = Except.error e := rfl

theorem flush_parts (s : MachineState) (h : MInv s)
    (hg : s.current.glyphs ≠ []) :
    List.Pairwise (· < ·) (List.map PagePlan.number (s.pages ++ [s.current])) ∧
    (∀ p ∈ s.pages ++ [s.current],
      0 < p.number ∧ p.glyphs ≠ [] ∧ p.number < s.next_page_number + 1) := by
  obtain ⟨⟨⟨hpair, hbound⟩, hpos⟩, heq⟩ := h
  constructor
  · simp only [List.map_append, List.map_cons, List.map_nil]
    rw [List.pairwise_append]
    refine ⟨hpair, List.pairwise_singleton _ _, ?_⟩
    intro a ha b hb
    simp at hb
    subst hb
    simp at ha
    obtain ⟨p, hp, rfl⟩ := ha
    exact (hbound p hp).2.2
  · intro p hp
    simp at hp
    rcases hp with hp | hp
    · obtain ⟨h1, h2, h3⟩ := hbound p hp
      exact ⟨h1, h2, by omega⟩
    · subst hp
      exact ⟨by omega, hg, by omega⟩

theorem flush_MInv (s : MachineState) (t : String) (h : MInv s)
    (hg : s.current.glyphs ≠ []) :
    MInv { current := { number := s.next_page_number + 1, title := t, glyphs := [], lines := [] }
           pages := s.pages ++ [s.current]
           pcnt := 0
           generated := s.generated + 1
           next_page_number := s.next_page_number + 1 } := by
  obtain ⟨hpair, hbound⟩ := flush_parts s h hg
  exact ⟨⟨⟨hpair, fun p hp => hbound p hp⟩, Nat.succ_pos _⟩, rfl⟩

theorem flush_InvW (s : MachineState) (t : String) (h : MInv s)
    (hg : s.current.glyphs ≠ []) :
    InvW { current := { number := s.next_page_number + 1, title := t, glyphs := [], lines := [] }
           pages := s.pages ++ [s.current]
           pcnt := s.pcnt
           generated := s.generated + 1
           next_page_number := s.next_page_number } := by
  obtain ⟨hpair, hbound⟩ := flush_parts s h hg
  exact ⟨⟨hpair, fun p hp => hbound p hp⟩, Nat.succ_pos _⟩

theorem MInv_weaken (s : MachineState) (h : MInv s) : InvW s := h.1


theorem chapter_prologue_inv (ctx : Ctx) (t : String) (s : MachineState)
    (hInv : MInv s) (s' : MachineState) (b : Bool)
    (h : Typesetter.chapter_prologue ctx t s = (s', b)) :
    (b = true → InvW s') ∧ (b = false → MInv s') := by
  unfold Typesetter.chapter_prologue at h
  try simp only [] at h
  split at h
  · rename_i hg
    split at h
    · cases h
      exact ⟨fun _ => flush_InvW s t hInv hg, fun hc => Bool.noConfusion hc⟩
    · cases h
      exact ⟨fun hc => Bool.noConfusion hc, fun _ => flush_MInv s t hInv hg⟩
  · cases h
    exact ⟨fun hc => Bool.noConfusion hc,
      fun _ => MInv_congr _ _ rfl rfl rfl hInv⟩

theorem ts_loop_invW (ctx : Ctx) (cfuel : ℕ) (k : ℕ) :
    ∀ (idx : ℕ) (ts ts' : Typesetter.TsState),
    MInv ts.ms → Typesetter.ts_loop ctx cfuel k idx ts = .ok ts' → InvW ts'.ms := by
  induction k with
  | zero =>
      intro idx ts ts' hInv hrun
      cases hrun
      exact MInv_weaken _ hInv
  | succ k ih =>
      intro idx ts ts' hInv hrun
      unfold Typesetter.ts_loop at hrun
      cases hent : ctx.corpus.entry idx with
      | error e =>
          rw [hent, except_bind_err] at hrun
          cases hrun
      | ok entry =>
          rw [hent, except_bind_ok] at hrun
          try simp only [] at hrun
          cases hcp : Typesetter.chapter_prologue ctx
              (Typesetter.compute_entry_title ctx idx) ts.ms with
          | mk s1 brk =>
              rw [hcp] at hrun
              obtain ⟨hbrk_t, hbrk_f⟩ :=
                chapter_prologue_inv ctx _ ts.ms hInv s1 brk hcp
              cases brk with
              | true =>
                  simp only [if_pos] at hrun
                  cases hrun
                  exact hbrk_t rfl
              | false =>
                  simp only [Bool.false_eq_true, if_false, ite_false] at hrun
                  cases hpe : Engine.process_entry ctx entry.data
                      (Typesetter.compute_entry_title ctx idx) cfuel s1 ts.bookline with
                  | error e =>
                      rw [hpe, except_bind_err] at hrun
                      cases hrun
                  | ok r =>
                      rw [hpe, except_bind_ok] at hrun
                      have hr1 : MInv r.1 :=
                        process_entry_inv ctx entry.data _ cfuel s1 ts.bookline r
                          (hbrk_f rfl) hpe
                      split at hrun
                      · cases hrun
                        exact MInv_weaken _ hr1
                      · exact ih (idx + 1) _ ts' hr1 hrun

theorem init_ts_MInv : MInv Typesetter.init_ts.ms := by
  refine ⟨⟨⟨?_, ?_⟩, ?_⟩, rfl⟩
  · simp [Typesetter.init_ts]
  · intro p hp
    simp [Typesetter.init_ts] at hp
  · show (0 : ℕ) < 1
    omega

/-- C1: every document plan produced by `build_plan` has strictly increasing
positive page numbers, and no emitted page is empty of glyphs. -/
theorem c1_pages_good (ctx : Ctx) (cfuel : ℕ) (plan : DocumentPlan)
    (h : Typesetter.build_plan ctx cfuel = .ok plan) :
    List.Pairwise (· < ·) (plan.pages.map PagePlan.number) ∧
    (∀ p ∈ plan.pages, 0 < p.number) ∧
    (∀ p ∈ plan.pages, p.glyphs ≠ []) := by
  unfold Typesetter.build_plan at h
  cases hts : Typesetter.ts_loop ctx cfuel (ctx.options.to_idx + 1 - ctx.options.from_idx)
      ctx.options.from_idx Typesetter.init_ts with
  | error e =>
      rw [hts] at h
      cases h
  | ok ts =>
      rw [hts] at h
      try simp only [except_bind_ok] at h
      obtain ⟨⟨hpair, hbound⟩, hpos⟩ := ts_loop_invW ctx cfuel _ _ _ ts init_ts_MInv hts
      split at h
      · -- final non-empty page pushed
        rename_i hcond
        cases h
        refine ⟨?_, ?_, ?_⟩
        · show List.Pairwise (· < ·)
            (List.map PagePlan.number (ts.ms.pages ++ [ts.ms.current]))
          simp only [List.map_append, List.map_cons, List.map_nil]
          rw [List.pairwise_append]
          refine ⟨hpair, List.pairwise_singleton _ _, ?_⟩
          intro a ha b hb
          simp at hb
          subst hb
          simp at ha
          obtain ⟨p, hp, rfl⟩ := ha
          exact (hbound p hp).2.2
        · intro p hp
          have hp' : p ∈ ts.ms.pages ++ [ts.ms.current] := hp
          simp at hp'
          rcases hp' with hp' | hp'
          · exact (hbound p hp').1
          · subst hp'
            exact hpos
        · intro p hp
          have hp' : p ∈ ts.ms.pages ++ [ts.ms.current] := hp
          simp at hp'
          rcases hp' with hp' | hp'
          · exact (hbound p hp').2.1
          · subst hp'
            exact hcond.1
      · cases h
        exact ⟨hpair, fun p hp => (hbound p hp).1, fun p hp => (hbound p hp).2.1⟩

/-- C1 witness: the single-chapter two-glyph corpus instantiates the theorem. -/
theorem c1_pages_good_witness :
    List.Pairwise (· < ·) (planAB.pages.map PagePlan.number) ∧
    (∀ p ∈ planAB.pages, 0 < p.number) ∧
    (∀ p ∈ planAB.pages, p.glyphs ≠ []) :=
  c1_pages_good ctxAB 1 planAB (by rfl)

/-- C2 counterexample: a chapter whose only entry is empty yields a plan whose
sole outline entry references page 1 while the page list is empty, so the
outline does not reference an existing page and `DocumentPlan.validate`
rejects the plan `build_plan` itself produced. -/
theorem c2_counterexample :
    Typesetter.build_plan ctxE 1 = .ok planE ∧
    planE.outlines ≠ [] ∧
    planE.outlines.all (fun o => planE.pages.all (fun p => p.number ≠ o.page_number)) = true ∧
    exceptOk (DocumentPlan.validate planE) = false :=
  ⟨by rfl, by decide, by decide, by decide⟩

def StepOk (P : MachineState → Prop) (r : Engine.PeRes) : Prop :=
  (∀ t e, r = .halt t e → P t) ∧ (∀ x y z t w, r = .next x y z t w → P t)

theorem StepOk_next {P : MachineState → Prop} (a : List Char) (b : Option Cell)
    (c : List Char) (s' : MachineState) (d : Bool) (h : P s') :
    StepOk P (.next a b c s' d) := by
  constructor
  · intro t e hh
    cases hh
  · intro x y z t w hh
    cases hh
    exact h

theorem StepOk_halt {P : MachineState → Prop} (s' : MachineState) (d : Bool)
    (h : P s') : StepOk P (.halt s' d) := by
  constructor
  · intro t e hh
    cases hh
    exact h
  · intro x y z t w hh
    cases hh

theorem StepOk_fail {P : MachineState → Prop} (e0 : String) :
    StepOk P (.fail e0) := by
  constructor
  · intro t e hh
    cases hh
  · intro x y z t w hh
    cases hh

theorem prop_ite {P : MachineState → Prop} (c : Prop) [Decidable c]
    (a b : MachineState) (ha : P a) (hb : P b) : P (if c then a else b) := by
  split <;> assumption

theorem EZ_finalize (ctx : Ctx) (t : String) (s : MachineState) :
    EmptyZero (Engine.finalize_page ctx t s) := by
  intro _
  unfold Engine.finalize_page
  split <;> rfl

theorem Covered_finalize (ctx : Ctx) (t : String) (s : MachineState) (n : ℕ)
    (h : Covered s n) : Covered (Engine.finalize_page ctx t s) n := by
  unfold Engine.finalize_page
  rcases h with ⟨p, hp, hn⟩ | ⟨hnum, hne⟩
  · left
    by_cases hg : s.current.glyphs = []
    · simp [hg]
      exact ⟨p, hp, hn⟩
    · simp [hg]
      exact ⟨p, Or.inl hp, hn⟩
  · left
    simp [hne]
    exact ⟨s.current, Or.inr rfl, hnum⟩

theorem Covered_extend (s s' : MachineState) (n : ℕ)
    (hpages : s'.pages = s.pages)
    (hnum : s'.current.number = s.current.number)
    (hgly : s.current.glyphs ≠ [] → s'.current.glyphs ≠ [])
    (h : Covered s n) : Covered s' n := by
  rcases h with ⟨p, hp, hn⟩ | ⟨hnum0, hne⟩
  · left
    exact ⟨p, hpages ▸ hp, hn⟩
  · right
    exact ⟨hnum ▸ hnum0, hgly hne⟩

theorem build_text_glyph_isSome (ctx : Ctx) (pos : Cell) (ch : Char)
    (is_nop is_rot : Bool)
    (hf : (ctx.fonts.pick_font ch ctx.fonts.text_stack).isSome) :
    (Engine.build_text_glyph ctx pos ch false is_nop is_rot).isSome := by
  obtain ⟨pk, hpk⟩ := Option.isSome_iff_exists.mp hf
  simp [Engine.build_text_glyph, Engine.pick_with_try_st, hpk]

theorem build_text_glyph_toList_ne (ctx : Ctx) (pos : Cell) (ch : Char)
    (is_nop is_rot : Bool)
    (hf : (ctx.fonts.pick_font ch ctx.fonts.text_stack).isSome) :
    (Engine.build_text_glyph ctx pos ch false is_nop is_rot).toList ≠ [] := by
  obtain ⟨g, hg⟩ := Option.isSome_iff_exists.mp
    (build_text_glyph_isSome ctx pos ch is_nop is_rot hf)
  simp [hg]

theorem EZ_of_ne (s : MachineState) (h : s.current.glyphs ≠ []) : EmptyZero s :=
  fun hc => absurd hc h

def CovAll (s : MachineState) (ns : List ℕ) : Prop := ∀ n ∈ ns, Covered s n

theorem CovAll_finalize (ctx : Ctx) (t : String) (s : MachineState) (ns : List ℕ)
    (h : CovAll s ns) : CovAll (Engine.finalize_page ctx t s) ns :=
  fun n hn => Covered_finalize ctx t s n (h n hn)

theorem CovAll_extend (s s' : MachineState) (ns : List ℕ)
    (hpages : s'.pages = s.pages)
    (hnum : s'.current.number = s.current.number)
    (hgly : s.current.glyphs ≠ [] → s'.current.glyphs ≠ [])
    (h : CovAll s ns) : CovAll s' ns :=
  fun n hn => Covered_extend s s' n hpages hnum hgly (h n hn)

theorem build_ne_none (ctx : Ctx)
    (hfonts : ∀ c : Char, (ctx.fonts.pick_font c ctx.fonts.text_stack).isSome) :
    ∀ (pos : Cell) (ch : Char) (is_nop is_rot : Bool),
    Engine.build_text_glyph ctx pos ch false is_nop is_rot ≠ none := by
  intro pos ch is_nop is_rot hc
  have := build_text_glyph_isSome ctx pos ch is_nop is_rot (hfonts ch)
  rw [hc] at this
  cases this

set_option maxHeartbeats 2000000 in
theorem pe_ordinary_cov (ctx : Ctx) (title : String) (ch : Char)
    (rest : List Char) (last_pos : Option Cell) (queue : List Char)
    (s : MachineState) (bl' : Bool) (ns : List ℕ)
    (hfonts : ∀ c : Char, (ctx.fonts.pick_font c ctx.fonts.text_stack).isSome)
    (hez : EmptyZero s) (hcov : CovAll s ns)
    (r : Engine.PeRes)
    (hr : Engine.pe_ordinary ctx title ch rest last_pos queue s bl' = r) :
    StepOk (fun t => EmptyZero t ∧ CovAll t ns) r := by
  have htl : ∀ (pos : Cell) (c : Char) (n r : Bool),
      (Engine.build_text_glyph ctx pos c false n r).toList ≠ [] :=
    fun pos c n r => build_text_glyph_toList_ne ctx pos c n r (hfonts c)
  unfold Engine.pe_ordinary at hr
  try simp only [] at hr
  repeat' split at hr
  all_goals subst hr
  all_goals
    first
    | (exfalso; simp_all [build_ne_none ctx hfonts]; done)
    | exact StepOk_fail _
    | exact StepOk_halt _ _ ⟨EZ_finalize ctx title s, CovAll_finalize ctx title s ns hcov⟩
    | exact StepOk_halt _ _ ⟨hez, hcov⟩
    | exact StepOk_next _ _ _ _ _
        ⟨EZ_of_ne _ (fun hc => absurd (List.append_eq_nil.mp hc).2 (List.cons_ne_nil _ _)),
         CovAll_extend (Engine.finalize_page ctx title s) _ _ rfl rfl
           (fun hne hc => hne (List.append_eq_nil.mp hc).1)
           (CovAll_finalize ctx title s ns hcov)⟩
    | exact StepOk_next _ _ _ _ _
        ⟨EZ_of_ne _ (fun hc => absurd (List.append_eq_nil.mp hc).2 (List.cons_ne_nil _ _)),
         CovAll_extend s _ _ rfl rfl
           (fun hne hc => hne (List.append_eq_nil.mp hc).1) hcov⟩
    | exact StepOk_next _ _ _ _ _
        ⟨EZ_of_ne _ (fun hc => htl _ _ _ _ (List.append_eq_nil.mp hc).2),
         CovAll_extend (Engine.finalize_page ctx title s) _ _ rfl rfl
           (fun hne hc => hne (List.append_eq_nil.mp hc).1)
           (CovAll_finalize ctx title s ns hcov)⟩
    | exact StepOk_next _ _ _ _ _
        ⟨EZ_of_ne _ (fun hc => htl _ _ _ _ (List.append_eq_nil.mp hc).2),
         CovAll_extend s _ _ rfl rfl
           (fun hne hc => hne (List.append_eq_nil.mp hc).1) hcov⟩
    | exact StepOk_next _ _ _ _ _
        ⟨EZ_of_ne _ (fun hc => htl _ _ _ _ (List.append_eq_nil.mp hc).2),
         CovAll_extend (Engine.finalize_page ctx title s) _ _ rfl rfl
           (fun hne hc => hne (List.append_eq_nil.mp (List.append_eq_nil.mp hc).1).1)
           (CovAll_finalize ctx title s ns hcov)⟩
    | exact StepOk_next _ _ _ _ _
        ⟨EZ_of_ne _ (fun hc => htl _ _ _ _ (List.append_eq_nil.mp hc).2),
         CovAll_extend s _ _ rfl rfl
           (fun hne hc => hne (List.append_eq_nil.mp (List.append_eq_nil.mp hc).1).1) hcov⟩
 
theorem StepOk_and {P Q : MachineState → Prop} {r : Engine.PeRes}
    (hp : StepOk P r) (hq : StepOk Q r) : StepOk (fun t => P t ∧ Q t) r := by
  constructor
  · intro t e hh
    exact ⟨hp.1 t e hh, hq.1 t e hh⟩
  · intro x y z t w hh
    exact ⟨hp.2 x y z t w hh, hq.2 x y z t w hh⟩

theorem Covered_self (s : MachineState) (h : s.current.glyphs ≠ []) :
    Covered s s.current.number := Or.inr ⟨rfl, h⟩

theorem CovAll_snoc (s : MachineState) (ns : List ℕ) (n : ℕ)
    (h : CovAll s ns) (hc : Covered s n) : CovAll s (ns ++ [n]) := by
  intro m hm
  rcases List.mem_append.mp hm with h1 | h2
  · exact h m h1
  · have hmn : m = n := by simpa using h2
    subst hmn
    exact hc

set_option maxHeartbeats 2000000 in
theorem pe_ordinary_est (ctx : Ctx) (title : String) (ch : Char)
    (rest : List Char) (last_pos : Option Cell) (queue : List Char)
    (s : MachineState) (bl' : Bool)
    (hfonts : ∀ c : Char, (ctx.fonts.pick_font c ctx.fonts.text_stack).isSome)
    (hez : EmptyZero s) (hpp : 0 < ctx.layout.per_page)
    (r : Engine.PeRes)
    (hr : Engine.pe_ordinary ctx title ch rest last_pos queue s bl' = r) :
    StepOk (fun t => Covered t s.current.number) r := by
  have htl : ∀ (pos : Cell) (c : Char) (n r : Bool),
      (Engine.build_text_glyph ctx pos c false n r).toList ≠ [] :=
    fun pos c n r => build_text_glyph_toList_ne ctx pos c n r (hfonts c)
  by_cases hg : s.current.glyphs = []
  · have hp0 : s.pcnt = 0 := hez hg
    have hppne : ¬ (s.pcnt = ctx.layout.per_page) := by omega
    unfold Engine.pe_ordinary at hr
    try simp only [hppne, and_false, false_and, if_false] at hr
    repeat' split at hr
    all_goals subst hr
    all_goals
      first
      | (exfalso; simp_all [build_ne_none ctx hfonts]; done)
      | exact StepOk_fail _
      | exact StepOk_next _ _ _ _ _
          (Or.inr ⟨rfl, fun hc => absurd (List.append_eq_nil.mp hc).2 (List.cons_ne_nil _ _)⟩)
      | exact StepOk_next _ _ _ _ _
          (Or.inr ⟨rfl, fun hc => htl _ _ _ _ (List.append_eq_nil.mp hc).2⟩)
  · unfold Engine.pe_ordinary at hr
    try simp only [] at hr
    repeat' split at hr
    all_goals subst hr
    all_goals
      first
      | (exfalso; simp_all [build_ne_none ctx hfonts]; done)
      | exact StepOk_fail _
      | exact StepOk_halt _ _ (Covered_finalize ctx title s _ (Covered_self s hg))
      | exact StepOk_halt _ _ (Covered_self s hg)
      | exact StepOk_next _ _ _ _ _
          (Covered_extend (Engine.finalize_page ctx title s) _ _ rfl rfl
            (fun hne hc => hne (List.append_eq_nil.mp hc).1)
            (Covered_finalize ctx title s _ (Covered_self s hg)))
      | exact StepOk_next _ _ _ _ _
          (Covered_extend s _ _ rfl rfl
            (fun hne hc => hne (List.append_eq_nil.mp hc).1)
            (Covered_self s hg))
      | exact StepOk_next _ _ _ _ _
          (Covered_extend (Engine.finalize_page ctx title s) _ _ rfl rfl
            (fun hne hc => hne (List.append_eq_nil.mp (List.append_eq_nil.mp hc).1).1)
            (Covered_finalize ctx title s _ (Covered_self s hg)))
      | exact StepOk_next _ _ _ _ _
          (Covered_extend s _ _ rfl rfl
            (fun hne hc => hne (List.append_eq_nil.mp (List.append_eq_nil.mp hc).1).1)
            (Covered_self s hg))

theorem pe_step_plain (ctx : Ctx) (title : String) (cfuel : ℕ) (ch : Char)
    (rest : List Char) (last_pos : Option Cell) (queue : List Char)
    (s : MachineState) (bl : Bool) (hch : ch ∉ plainMarkers) :
    Engine.pe_step ctx title cfuel ch rest last_pos queue s bl =
      Engine.pe_ordinary ctx title ch rest last_pos queue s bl := by
  simp only [plainMarkers, List.mem_cons, List.not_mem_nil, or_false, not_or] at hch
  obtain ⟨h1, h2, h3, h4, h5, h6, h7, h8, h9, h10⟩ := hch
  unfold Engine.pe_step
  simp [h1, h2, h3, h4, h5, h6, h7, h8, h9, h10]

theorem pe_ordinary_rest (ctx : Ctx) (title : String) (ch : Char)
    (rest : List Char) (last_pos : Option Cell) (queue : List Char)
    (s : MachineState) (bl' : Bool) :
    ∀ x y z t w,
      Engine.pe_ordinary ctx title ch rest last_pos queue s bl' = .next x y z t w →
      x = rest ∨ ∃ c, rest = c :: x := by
  intro x y z t w hr
  unfold Engine.pe_ordinary at hr
  try simp only [] at hr
  repeat' split at hr
  all_goals try cases hr
  all_goals
    first
    | exact Or.inl rfl
    | exact Or.inr ⟨_, rfl⟩

theorem pe_loop_cov (ctx : Ctx) (title : String) (cfuel : ℕ)
    (hfonts : ∀ c : Char, (ctx.fonts.pick_font c ctx.fonts.text_stack).isSome) :
    ∀ (fuel : ℕ) (stream : List Char) (last_pos : Option Cell) (queue : List Char)
      (s : MachineState) (bl : Bool) (ns : List ℕ) (res : MachineState × Bool),
      (∀ c ∈ stream, c ∉ plainMarkers) → EmptyZero s → CovAll s ns →
      Engine.pe_loop ctx title cfuel fuel stream last_pos queue s bl = .ok res →
      EmptyZero res.1 ∧ CovAll res.1 ns := by
  intro fuel
  induction fuel with
  | zero =>
      intro stream last_pos queue s bl ns res hstream hez hcov hrun
      cases stream with
      | nil =>
          cases hrun
          exact ⟨hez, hcov⟩
      | cons a l => cases hrun
  | succ n ih =>
      intro stream last_pos queue s bl ns res hstream hez hcov hrun
      cases stream with
      | nil =>
          cases hrun
          exact ⟨hez, hcov⟩
      | cons ch rest =>
          have hch : ch ∉ plainMarkers := hstream ch (List.mem_cons_self _ _)
          have hrest : ∀ c ∈ rest, c ∉ plainMarkers :=
            fun c hc => hstream c (List.mem_cons_of_mem _ hc)
          have hloop : Engine.pe_loop ctx title cfuel (n + 1) (ch :: rest) last_pos queue s bl =
              (match Engine.pe_step ctx title cfuel ch rest last_pos queue s bl with
               | .halt s' b' => Except.ok (s', b')
               | .fail e => Except.error e
               | .next rest' last' q' s' bl' =>
                   Engine.pe_loop ctx title cfuel n rest' last' q' s' bl') := rfl
          rw [hloop, pe_step_plain ctx title cfuel ch rest last_pos queue s bl hch] at hrun
          cases hstep : Engine.pe_ordinary ctx title ch rest last_pos queue s bl with
          | halt s1 b1 =>
              rw [hstep] at hrun
              cases hrun
              exact (pe_ordinary_cov ctx title ch rest last_pos queue s bl ns
                hfonts hez hcov _ hstep).1 _ _ rfl
          | fail e =>
              rw [hstep] at hrun
              cases hrun
          | next x y z t w =>
              rw [hstep] at hrun
              have hP := (pe_ordinary_cov ctx title ch rest last_pos queue s bl ns
                hfonts hez hcov _ hstep).2 x y z t w rfl
              have hx : ∀ c ∈ x, c ∉ plainMarkers := by
                rcases pe_ordinary_rest ctx title ch rest last_pos queue s bl x y z t w hstep
                  with h | ⟨c0, hc0⟩
                · subst h
                  exact hrest
                · intro c hc
                  refine hrest c ?_
                  rw [hc0]
                  exact List.mem_cons_of_mem _ hc
              exact ih x y z t w ns res hx hP.1 hP.2 hrun

theorem pe_loop_covN (ctx : Ctx) (title : String) (cfuel : ℕ)
    (hfonts : ∀ c : Char, (ctx.fonts.pick_font c ctx.fonts.text_stack).isSome)
    (hpp : 0 < ctx.layout.per_page) :
    ∀ (fuel : ℕ) (ch : Char) (rest : List Char) (last_pos : Option Cell)
      (queue : List Char) (s : MachineState) (bl : Bool) (ns : List ℕ)
      (res : MachineState × Bool),
      (∀ c ∈ ch :: rest, c ∉ plainMarkers) → EmptyZero s → CovAll s ns →
      Engine.pe_loop ctx title cfuel fuel (ch :: rest) last_pos queue s bl = .ok res →
      EmptyZero res.1 ∧ CovAll res.1 (ns ++ [s.current.number]) := by
  intro fuel ch rest last_pos queue s bl ns res hstream hez hcov hrun
  cases fuel with
  | zero => cases hrun
  | succ n =>
      have hch : ch ∉ plainMarkers := hstream ch (List.mem_cons_self _ _)
      have hrest : ∀ c ∈ rest, c ∉ plainMarkers :=
        fun c hc => hstream c (List.mem_cons_of_mem _ hc)
      have hloop : Engine.pe_loop ctx title cfuel (n + 1) (ch :: rest) last_pos queue s bl =
          (match Engine.pe_step ctx title cfuel ch rest last_pos queue s bl with
           | .halt s' b' => Except.ok (s', b')
           | .fail e => Except.error e
           | .next rest' last' q' s' bl' =>
               Engine.pe_loop ctx title cfuel n rest' last' q' s' bl') := rfl
      rw [hloop, pe_step_plain ctx title cfuel ch rest last_pos queue s bl hch] at hrun
      cases hstep : Engine.pe_ordinary ctx title ch rest last_pos queue s bl with
      | halt s1 b1 =>
          rw [hstep] at hrun
          cases hrun
          have hP := (pe_ordinary_cov ctx title ch rest last_pos queue s bl ns
            hfonts hez hcov _ hstep).1 s1 b1 rfl
          have hE := (pe_ordinary_est ctx title ch rest last_pos queue s bl
            hfonts hez hpp _ hstep).1 s1 b1 rfl
          exact ⟨hP.1, CovAll_snoc s1 ns _ hP.2 hE⟩
      | fail e =>
          rw [hstep] at hrun
          cases hrun
      | next x y z t w =>
          rw [hstep] at hrun
          have hP := (pe_ordinary_cov ctx title ch rest last_pos queue s bl ns
            hfonts hez hcov _ hstep).2 x y z t w rfl
          have hE := (pe_ordinary_est ctx title ch rest last_pos queue s bl
            hfonts hez hpp _ hstep).2 x y z t w rfl
          have hx : ∀ c ∈ x, c ∉ plainMarkers := by
            rcases pe_ordinary_rest ctx title ch rest last_pos queue s bl x y z t w hstep
              with h | ⟨c0, hc0⟩
            · subst h
              exact hrest
            · intro c hc
              refine hrest c ?_
              rw [hc0]
              exact List.mem_cons_of_mem _ hc
          exact pe_loop_cov ctx title cfuel hfonts n x y z t w (ns ++ [s.current.number]) res
            hx hP.1 (CovAll_snoc t ns _ hP.2 hE) hrun

theorem reached_limit_none (ctx : Ctx) (htp : ctx.options.test_pages = none) (g : ℕ) :
    Engine.reached_limit ctx g = false := by
  unfold Engine.reached_limit
  rw [htp]

theorem chapter_prologue_nobreak (ctx : Ctx) (t : String) (s : MachineState)
    (htp : ctx.options.test_pages = none) :
    (Typesetter.chapter_prologue ctx t s).2 = false := by
  unfold Typesetter.chapter_prologue
  simp only [reached_limit_none ctx htp, Bool.false_eq_true, if_false]
  split <;> rfl

theorem chapter_prologue_EZ (ctx : Ctx) (t : String) (s : MachineState)
    (htp : ctx.options.test_pages = none) (hez : EmptyZero s) :
    EmptyZero (Typesetter.chapter_prologue ctx t s).1 := by
  unfold Typesetter.chapter_prologue
  simp only [reached_limit_none ctx htp, Bool.false_eq_true, if_false]
  split
  · exact fun _ => rfl
  · exact fun hg => hez hg

theorem chapter_prologue_cov (ctx : Ctx) (t : String) (s : MachineState) (ns : List ℕ)
    (htp : ctx.options.test_pages = none) (hcov : CovAll s ns) :
    CovAll (Typesetter.chapter_prologue ctx t s).1 ns := by
  unfold Typesetter.chapter_prologue
  simp only [reached_limit_none ctx htp, Bool.false_eq_true, if_false]
  split
  · intro n hn
    rcases hcov n hn with ⟨p, hp, hpn⟩ | ⟨hnum, hne⟩
    · exact Or.inl ⟨p, List.mem_append_left _ hp, hpn⟩
    · exact Or.inl ⟨s.current, List.mem_append_right _ (List.mem_singleton.mpr rfl), hnum⟩
  · intro n hn
    rcases hcov n hn with ⟨p, hp, hpn⟩ | ⟨hnum, hne⟩
    · exact Or.inl ⟨p, hp, hpn⟩
    · exact Or.inr ⟨hnum, hne⟩

theorem ts_loop_cov (ctx : Ctx) (cfuel : ℕ)
    (hfonts : ∀ c : Char, (ctx.fonts.pick_font c ctx.fonts.text_stack).isSome)
    (hpp : 0 < ctx.layout.per_page)
    (htp : ctx.options.test_pages = none)
    (hcorp : ∀ j e, ctx.corpus.entry j = Except.ok e →
      e.data ≠ [] ∧ ∀ c ∈ e.data, c ∉ plainMarkers)
    (k : ℕ) :
    ∀ (idx : ℕ) (ts ts' : Typesetter.TsState),
      MInv ts.ms → EmptyZero ts.ms →
      CovAll ts.ms (ts.outlines.map OutlineEntry.page_number) →
      Typesetter.ts_loop ctx cfuel k idx ts = .ok ts' →
      CovAll ts'.ms (ts'.outlines.map OutlineEntry.page_number) := by
  induction k with
  | zero =>
      intro idx ts ts' hInv hez hcov hrun
      cases hrun
      exact hcov
  | succ k ih =>
      intro idx ts ts' hInv hez hcov hrun
      unfold Typesetter.ts_loop at hrun
      cases hent : ctx.corpus.entry idx with
      | error e =>
          rw [hent, except_bind_err] at hrun
          cases hrun
      | ok entry =>
          rw [hent, except_bind_ok] at hrun
          try simp only [] at hrun
          cases hcp : Typesetter.chapter_prologue ctx
              (Typesetter.compute_entry_title ctx idx) ts.ms with
          | mk s1 brk =>
              rw [hcp] at hrun
              have hbrk : brk = false := by
                have hnb := chapter_prologue_nobreak ctx
                  (Typesetter.compute_entry_title ctx idx) ts.ms htp
                rw [hcp] at hnb
                exact hnb
              subst hbrk
              simp only [Bool.false_eq_true, if_false, ite_false] at hrun
              have hMI1 : MInv s1 :=
                (chapter_prologue_inv ctx _ ts.ms hInv s1 false hcp).2 rfl
              have hez1 : EmptyZero s1 := by
                have hE := chapter_prologue_EZ ctx
                  (Typesetter.compute_entry_title ctx idx) ts.ms htp hez
                rw [hcp] at hE
                exact hE
              have hcov1 : CovAll s1 (ts.outlines.map OutlineEntry.page_number) := by
                have hC := chapter_prologue_cov ctx
                  (Typesetter.compute_entry_title ctx idx) ts.ms _ htp hcov
                rw [hcp] at hC
                exact hC
              obtain ⟨hne, hfree⟩ := hcorp idx entry hent
              obtain ⟨ch, cdata, hdata⟩ := List.exists_cons_of_ne_nil hne
              cases hpe : Engine.process_entry ctx entry.data
                  (Typesetter.compute_entry_title ctx idx) cfuel s1 ts.bookline with
              | error e =>
                  rw [hpe, except_bind_err] at hrun
                  cases hrun
              | ok r =>
                  rw [hpe, except_bind_ok] at hrun
                  have hMIr : MInv r.1 :=
                    process_entry_inv ctx entry.data _ cfuel s1 ts.bookline r hMI1 hpe
                  have hpe' : Engine.pe_loop ctx (Typesetter.compute_entry_title ctx idx) cfuel
                      (ch :: cdata).length (ch :: cdata) none [] s1 ts.bookline = .ok r := by
                    rw [← hdata]
                    exact hpe
                  have hcovr := pe_loop_covN ctx _ cfuel hfonts hpp (ch :: cdata).length
                    ch cdata none [] s1 ts.bookline _ r (hdata ▸ hfree) hez1 hcov1 hpe'
                  have hnum : s1.next_page_number = s1.current.number := hMI1.2.symm
                  have hcovr' : CovAll r.1
                      ((ts.outlines ++ [OutlineEntry.mk
                        (Typesetter.compute_entry_title ctx idx)
                        s1.next_page_number]).map OutlineEntry.page_number) := by
                    rw [List.map_append]
                    simp only [List.map_cons, List.map_nil]
                    rw [hnum]
                    exact hcovr.2
                  rw [reached_limit_none ctx htp] at hrun
                  simp only [Bool.false_eq_true, if_false, ite_false] at hrun
                  exact ih (idx + 1) _ ts' hMIr hcovr.1 hcovr' hrun

/-- C2 (amended): when no page cap is set, the page capacity is positive, the
text font stack covers every character, and every available chapter entry is
non-empty and free of control markers, every outline entry of a plan produced
by `build_plan` references an existing page of the plan. -/
theorem c2_outlines_amended (ctx : Ctx) (cfuel : ℕ) (plan : DocumentPlan)
    (hfonts : ∀ c : Char, (ctx.fonts.pick_font c ctx.fonts.text_stack).isSome)
    (hpp : 0 < ctx.layout.per_page)
    (htp : ctx.options.test_pages = none)
    (hcorp : ∀ j e, ctx.corpus.entry j = Except.ok e →
      e.data ≠ [] ∧ ∀ c ∈ e.data, c ∉ plainMarkers)
    (hb : Typesetter.build_plan ctx cfuel = .ok plan) :
    ∀ o ∈ plan.outlines, ∃ p ∈ plan.pages, p.number = o.page_number := by
  unfold Typesetter.build_plan at hb
  cases hts : Typesetter.ts_loop ctx cfuel (ctx.options.to_idx + 1 - ctx.options.from_idx)
      ctx.options.from_idx Typesetter.init_ts with
  | error e =>
      rw [hts] at hb
      cases hb
  | ok ts =>
      rw [hts] at hb
      try simp only [except_bind_ok] at hb
      have hcov : CovAll ts.ms (ts.outlines.map OutlineEntry.page_number) :=
        ts_loop_cov ctx cfuel hfonts hpp htp hcorp _ _ Typesetter.init_ts ts
          init_ts_MInv (fun _ => rfl) (fun n hn => absurd hn (List.not_mem_nil n)) hts
      intro o ho
      split at hb
      · rename_i hcond
        cases hb
        have hmem : o.page_number ∈ ts.outlines.map OutlineEntry.page_number :=
          List.mem_map_of_mem _ ho
        rcases hcov _ hmem with ⟨p, hp, hpn⟩ | ⟨hnum, hne⟩
        · exact ⟨p, List.mem_append_left _ hp, hpn⟩
        · exact ⟨ts.ms.current, List.mem_append_right _ (List.mem_singleton.mpr rfl), hnum⟩
      · rename_i hcond
        cases hb
        have hg : ts.ms.current.glyphs = [] := by
          by_contra hgg
          refine hcond ⟨hgg, ?_⟩
          rw [reached_limit_none ctx htp]
          exact Bool.false_ne_true
        have hmem : o.page_number ∈ ts.outlines.map OutlineEntry.page_number :=
          List.mem_map_of_mem _ ho
        rcases hcov _ hmem with ⟨p, hp, hpn⟩ | ⟨hnum, hne⟩
        · exact ⟨p, hp, hpn⟩
        · exact absurd hg hne

theorem corpusAB_entries : ∀ j e, corpusAB.entry j = Except.ok e →
    e.data ≠ [] ∧ ∀ c ∈ e.data, c ∉ plainMarkers := by
  intro j e h
  match j with
  | 0 => exact absurd h (by simp [TextCorpus.entry, corpusAB])
  | 1 =>
      have he : e = ⟨"001.txt", 1, ['a', 'b']⟩ := by
        simp [TextCorpus.entry, corpusAB] at h
        exact h.symm
      subst he
      exact ⟨by decide, by decide⟩
  | (n + 2) => exact absurd h (by simp [TextCorpus.entry, corpusAB])

/-- C2 witness: on the two-glyph corpus every outline entry finds its page. -/
theorem c2_outlines_amended_witness :
    planAB.outlines.all
      (fun o => planAB.pages.any (fun p => p.number == o.page_number)) = true := by
  have h := c2_outlines_amended ctxAB 1 planAB (fun _ => rfl) (by decide) rfl
    corpusAB_entries (by rfl)
  rw [List.all_eq_true]
  intro o ho
  obtain ⟨p, hp, hpn⟩ := h o ho
  rw [List.any_eq_true]
  exact ⟨p, hp, by simp [hpn]⟩

/-- C3: `finalize_page` leaves the in-progress page's line-placement list
unchanged and clears only the glyphs. -/
theorem c3_finalize_preserves_lines (ctx : Ctx) (title : String) (s : MachineState) :
    (Engine.finalize_page ctx title s).current.lines = s.current.lines ∧
    (Engine.finalize_page ctx title s).current.glyphs = [] := by
  by_cases h : s.current.glyphs = [] <;>
    simp [Engine.finalize_page, h]

/-- C6: the preprocessor's padding count makes the padded length a multiple of
the row count, stays below the row count, and is zero when the length already
divides evenly. -/
theorem c6_padding_mod (L R : ℕ) (h : 0 < R) :
    (L + missing_spaces L R) % R = 0 ∧ missing_spaces L R < R ∧
    (L % R = 0 → missing_spaces L R = 0) := by
  have hRne : R ≠ 0 := Nat.pos_iff_ne_zero.mp h
  have hmod := Nat.mod_lt L h
  have hdm := Nat.div_add_mod L R
  unfold missing_spaces
  by_cases h0 : L % R = 0 <;> simp [hRne, h0]
  · omega
  · refine ⟨?_, by omega⟩
    have h1 : L + (R - L % R) = R * (L / R + 1) := by
      rw [Nat.mul_add, Nat.mul_one]
      omega
    rw [h1]
    exact Nat.mul_mod_right _ _

/-- C6 witness: the theorem at L = 7, R = 3. -/
theorem c6_padding_mod_witness :
    (0 : ℕ) < 3 ∧ ((7 + missing_spaces 7 3) % 3 = 0 ∧ missing_spaces 7 3 < 3 ∧
      (7 % 3 = 0 → missing_spaces 7 3 = 0)) :=
  ⟨by decide, c6_padding_mod 7 3 (by decide)⟩

theorem fbBuf_eq (f : ℕ) : ∀ n : ℕ, n ≤ f → fbBuf f n = (Nat.digits 10 n).map digitSym := by
  induction f with
  | zero =>
      intro n hn
      interval_cases n
      simp [fbBuf]
  | succ f ih =>
      intro n hn
      by_cases h0 : n = 0
      · simp [fbBuf, h0]
      · have hda : Nat.digits 10 n = n % 10 :: Nat.digits 10 (n / 10) :=
          Nat.digits_def' (by norm_num) (Nat.pos_of_ne_zero h0)
        have hdiv : n / 10 ≤ f := by
          have := Nat.div_lt_self (Nat.pos_of_ne_zero h0) (by norm_num : 1 < 10)
          omega
        simp [fbBuf, h0, hda, ih _ hdiv]

/-- C9: on a table miss the numeral renderer falls back to naive
most-significant-first digit substitution over the fixed ten-symbol alphabet,
with the zero symbol for n = 0. -/
theorem c9_numeral_fallback (m : NumeralMap) (n : ℕ) (h : m.get n = none) :
    m.render n =
      if n = 0 then "〇" else String.mk (((Nat.digits 10 n).map digitSym).reverse) := by
  unfold NumeralMap.render
  rw [h]
  unfold fallback_digits
  by_cases h0 : n = 0 <;> simp [h0, fbBuf_eq n n le_rfl]

/-- C9 witness: 12 renders as digit-1 then digit-2. -/
theorem c9_numeral_fallback_witness :
    NumeralMap.render ⟨fun _ => none⟩ 12 =
        (if 12 = 0 then "〇"
          else String.mk (((Nat.digits 10 12).map digitSym).reverse)) ∧
      NumeralMap.render ⟨fun _ => none⟩ 12 = "一二" :=
  ⟨c9_numeral_fallback ⟨fun _ => none⟩ 12 rfl, by decide⟩

/-- C4 (amended): `Layout.build` fails exactly when the column count is zero,
the row count is zero, or the band count is zero or does not divide the row
count; margins are not checked there. -/
theorem c4_build_errors_amended (book : BookConfig) (canvas : CanvasConfig) (mode : MultiRowsMode) :
    exceptOk (Layout.build book canvas mode) = false ↔
      (canvas.leaf_col = 0 ∨ book.row_num = 0 ∨
        match mode with
        | .Disabled => False
        | .HorizontalLeaf rows => rows = 0 ∨ book.row_num % rows ≠ 0
        | .HorizontalPage rows => rows = 0 ∨ book.row_num % rows ≠ 0) := by
  by_cases h0 : canvas.leaf_col = 0 ∨ book.row_num = 0
  · simp [Layout.build, h0, exceptOk]
    tauto
  · cases mode with
    | Disabled => simp [Layout.build, h0, exceptOk]
    | HorizontalLeaf rows =>
        by_cases h1 : rows = 0 ∨ book.row_num % rows ≠ 0 <;>
          simp [Layout.build, h0, h1, exceptOk] <;> tauto
    | HorizontalPage rows =>
        by_cases h1 : rows = 0 ∨ book.row_num % rows ≠ 0 <;>
          simp [Layout.build, h0, h1, exceptOk] <;> tauto

/-- C4 counterexample: a canvas whose margins exceed its width is accepted by
`Layout.build`, so the margin condition claimed by the spec is not among its
error conditions. -/
theorem c4_counterexample :
    canvasBad.canvas_width < canvasBad.margins_left + canvasBad.margins_right ∧
    exceptOk (Layout.build bookG canvasBad .Disabled) = true := by
  constructor
  · norm_num [canvasBad]
  · rfl

/-- C8: the dollar marker leaves the slot counter unchanged at 0 or at half
capacity, jumps it to half capacity when below, and to full capacity
otherwise. -/
theorem c8_dollar_marker (ctx : Ctx) (title : String) (cfuel : ℕ) (s : MachineState) (bl : Bool) :
    Engine.process_entry ctx ['$'] title cfuel s bl =
      .ok ({ s with pcnt :=
        if s.pcnt = 0 ∨ s.pcnt = ctx.layout.per_page / 2 then s.pcnt
        else if s.pcnt < ctx.layout.per_page / 2 then ctx.layout.per_page / 2
        else ctx.layout.per_page }, bl) := by
  by_cases h1 : s.pcnt = 0 ∨ s.pcnt = ctx.layout.per_page / 2 <;>
    by_cases h2 : s.pcnt < ctx.layout.per_page / 2 <;>
      simp [Engine.process_entry, Engine.pe_loop, Engine.pe_step,
        Engine.skip_row_padding, h1, h2]

theorem lenConstSum {α : Type} (n m : ℕ) (f : ℕ → List α) (h : ∀ i, (f i).length = m) :
    ((List.range n).map (List.length ∘ f)).sum = n * m := by
  induction n with
  | zero => simp
  | succ n ih =>
      rw [List.range_succ]
      simp [ih, h, Nat.succ_mul]

theorem pushList_len (book : BookConfig) (canvas : CanvasConfig) (mode : MultiRowsMode)
    (cw rh : ℚ) (rpc : ℕ) :
    (Layout.pushList book canvas mode cw rh rpc).length =
      match mode with
      | .Disabled => canvas.leaf_col * rpc
      | .HorizontalLeaf rows => rows * (canvas.leaf_col * rpc)
      | .HorizontalPage rows => rows * (canvas.leaf_col * rpc) := by
  cases mode with
  | Disabled =>
      simp only [Layout.pushList, List.length_flatMap]
      exact lenConstSum _ _ _ (fun i => by simp)
  | HorizontalLeaf rows =>
      simp only [Layout.pushList, List.length_flatMap]
      refine lenConstSum _ _ _ (fun rid => ?_)
      simp only [List.length_flatMap]
      exact lenConstSum _ _ _ (fun i => by simp)
  | HorizontalPage rows =>
      have hhalf : canvas.leaf_col / 2 ≤ canvas.leaf_col := Nat.div_le_self _ _
      have hL : ∀ k : ℕ, ((List.range rows).flatMap (fun rid =>
          (List.range k).flatMap (fun i0 =>
            (List.range rpc).map (fun j0 =>
              Layout.pushCell (canvas.canvas_width - canvas.margins_right - cw * ((i0 + 1 : ℕ) : ℚ))
                (Layout.posY book canvas rh ((rpc : ℚ) * rid * rh) (j0 + 1)))))).length
          = rows * (k * rpc) := by
        intro k
        simp only [List.length_flatMap]
        refine lenConstSum _ _ _ (fun rid => ?_)
        simp only [List.length_flatMap]
        exact lenConstSum _ _ _ (fun i => by simp)
      have hR : ((List.range rows).flatMap (fun rid =>
          (List.range (canvas.leaf_col - canvas.leaf_col / 2)).flatMap (fun i0 =>
            (List.range rpc).map (fun j0 =>
              Layout.pushCell
                (canvas.canvas_width - canvas.margins_right
                  - cw * ((canvas.leaf_col / 2 + i0 + 1 : ℕ) : ℚ) - canvas.leaf_center_width)
                (Layout.posY book canvas rh ((rpc : ℚ) * rid * rh) (j0 + 1)))))).length
          = rows * ((canvas.leaf_col - canvas.leaf_col / 2) * rpc) := by
        simp only [List.length_flatMap]
        refine lenConstSum _ _ _ (fun rid => ?_)
        simp only [List.length_flatMap]
        exact lenConstSum _ _ _ (fun i => by simp)
      by_cases h : 0 < canvas.leaf_col / 2
      · simp only [Layout.pushList, h, if_pos, List.length_append]
        rw [hL, hR]
        have hsplit : canvas.leaf_col / 2 * rpc
            + (canvas.leaf_col - canvas.leaf_col / 2) * rpc
            = canvas.leaf_col * rpc := by
          rw [← Nat.add_mul]
          congr 1
          omega
        rw [← Nat.mul_add, hsplit]
      · simp only [Layout.pushList, h, if_neg, if_false, List.nil_append]
        rw [hR]
        have h0 : canvas.leaf_col / 2 = 0 := by omega
        rw [h0, Nat.sub_zero]

/-- C5: every layout accepted by `Layout.build` has capacity equal to
columns x rows-per-column x bands, and both position tables hold exactly
capacity+1 entries with the origin sentinel at index 0. -/
theorem c5_capacity_tables (book : BookConfig) (canvas : CanvasConfig) (mode : MultiRowsMode)
    (l : Layout) (h : Layout.build book canvas mode = .ok l) :
    l.per_page = l.columns * l.rows_per_column * l.multirows_bands ∧
    l.pos_l.length = l.per_page + 1 ∧
    l.pos_r.length = l.per_page + 1 ∧
    l.pos_l.get? 0 = some ⟨0, 0⟩ ∧
    l.pos_r.get? 0 = some ⟨0, 0⟩ := by
  by_cases h0 : canvas.leaf_col = 0 ∨ book.row_num = 0
  · simp [Layout.build, h0] at h
  · cases mode with
    | Disabled =>
        simp only [Layout.build, h0, if_neg, if_false] at h
        rw [Except.ok.injEq] at h
        subst h
        refine ⟨by ring, ?_, ?_, rfl, rfl⟩ <;>
          simp [pushList_len]
    | HorizontalLeaf rows =>
        by_cases h1 : rows = 0 ∨ book.row_num % rows ≠ 0
        · simp [Layout.build, h0, h1] at h
        · have hrows : rows ≠ 0 := fun hh => h1 (Or.inl hh)
          have hmod : book.row_num % rows = 0 := by
            by_contra hh
            exact h1 (Or.inr hh)
          have hdiv : book.row_num / rows * rows = book.row_num :=
            Nat.div_mul_cancel (Nat.dvd_of_mod_eq_zero hmod)
          simp only [Layout.build, h0, h1, if_neg, if_false] at h
          rw [Except.ok.injEq] at h
          subst h
          refine ⟨?_, ?_, ?_, rfl, rfl⟩ <;>
            simp [pushList_len] <;>
            first
            | rw [Nat.mul_assoc, hdiv]
            | rw [Nat.mul_left_comm, Nat.mul_comm rows, hdiv]
    | HorizontalPage rows =>
        by_cases h1 : rows = 0 ∨ book.row_num % rows ≠ 0
        · simp [Layout.build, h0, h1] at h
        · have hmod : book.row_num % rows = 0 := by
            by_contra hh
            exact h1 (Or.inr hh)
          have hdiv : book.row_num / rows * rows = book.row_num :=
            Nat.div_mul_cancel (Nat.dvd_of_mod_eq_zero hmod)
          simp only [Layout.build, h0, h1, if_neg, if_false] at h
          rw [Except.ok.injEq] at h
          subst h
          refine ⟨?_, ?_, ?_, rfl, rfl⟩ <;>
            simp [pushList_len] <;>
            first
            | rw [Nat.mul_assoc, hdiv]
            | rw [Nat.mul_left_comm, Nat.mul_comm rows, hdiv]

/-- C5 witness: the odd-column `HorizontalPage` layout instantiates the
theorem. -/
theorem c5_capacity_tables_witness :
    layoutOdd.per_page = layoutOdd.columns * layoutOdd.rows_per_column * layoutOdd.multirows_bands ∧
    layoutOdd.pos_l.length = layoutOdd.per_page + 1 ∧
    layoutOdd.pos_r.length = layoutOdd.per_page + 1 ∧
    layoutOdd.pos_l.get? 0 = some ⟨0, 0⟩ ∧
    layoutOdd.pos_r.get? 0 = some ⟨0, 0⟩ :=
  c5_capacity_tables bookG canvasOdd (.HorizontalPage 2) layoutOdd (by rfl)

/-- C10: with a single band the caret marker is not consumed as a control
marker: it is laid out as an ordinary character, consuming one slot and
emitting one glyph. -/
theorem c10_caret_plain (ctx : Ctx) (title : String) (cfuel : ℕ) (s : MachineState)
    (pos : Cell) (g : GlyphSpec)
    (hband : ctx.layout.multirows_bands = 1)
    (hnop : '^' ∉ ctx.book.punctuation.text_nop.chars)
    (hrot : '^' ∉ ctx.book.punctuation.text_rotate.chars)
    (hlt : s.pcnt < ctx.layout.per_page)
    (hpos : Layout.pos_left ctx.layout (s.pcnt + 1) = some pos)
    (hg : Engine.build_text_glyph ctx pos '^' false false false = some g) :
    Engine.process_entry ctx ['^'] title cfuel s false =
      .ok
        ({ s with
            pcnt := s.pcnt + 1
            current := { s.current with glyphs := s.current.glyphs ++ [g] } },
          false) := by
  have hne : ¬ s.pcnt = ctx.layout.per_page := Nat.ne_of_lt hlt
  have hb : ¬ ((1 : ℕ) > 1) := by omega
  simp only [Engine.process_entry, List.length_cons, List.length_nil]
  rw [Engine.pe_loop]
  simp [Engine.pe_step, Engine.pe_ordinary, hband, hnop, hrot, hne, hb, hpos, hg,
    Engine.maybe_bookline, Engine.pe_loop]

/-- C10 witness: the caret on the single-band fixture consumes one slot and
emits its glyph. -/
theorem c10_caret_plain_witness :
    Engine.process_entry ctxAB ['^'] "t" 1 state0 false =
      .ok
        ({ state0 with
            pcnt := state0.pcnt + 1
            current := { state0.current with glyphs := state0.current.glyphs ++ [caretGlyph] } },
          false) :=
  c10_caret_plain ctxAB "t" 1 state0 posSlot1 caretGlyph rfl (by decide) (by decide)
    (by decide) (by rfl) (by rfl)

/-- C7 witness: the three-character block advances the slot counter by 2 on
the 40-slot layout. -/
theorem c7_comment_packing_witness :
    (∃ s', Engine.render_comments ctx40 "t" 2 ['甲', '乙', '丙'] state0 = .ok (s', []) ∧
      s'.pcnt = state0.pcnt + ((['甲', '乙', '丙'] : List Char).length + 1) / 2 ∧
      s'.pages = state0.pages) ∧
    (∀ idx ∈ Engine.fetched_indices state0.pcnt
        (((['甲', '乙', '丙'] : List Char).length + 1) / 2),
      1 ≤ idx ∧ idx ≤ ctx40.layout.per_page) :=
  c7_comment_packing ctx40 "t" 2 ['甲', '乙', '丙'] state0 (by decide) (by decide) (by decide)
    (by decide) (by decide) (by decide) (by decide) (by decide) (by decide)
